import Mathlib

/-!
Verification of the gitjoin reconciliation engine against its
natural-language specification.

The Go sources (internal/lib/sync.go, internal/lib/git.go,
internal/lib/types.go) are shallowly embedded below.  Strings that are
inspected character by character (gitignore contents, repository
identifiers, glob patterns) are modelled as `List Char`; strings that are
only carried around as atoms (local paths, error messages, branch names)
are modelled as Lean `String`.  Go byte indices are modelled as character
indices, which agrees with the byte view on ASCII data.  External git
processes are modelled by an oracle record (`RepoEnv`) giving the result
of each backend invocation for one repository.
-/

namespace Gitjoin

/-! ## Character-list string utilities (models of Go `strings` functions) -/

/-- Model of Go `strings.HasPrefix needle`: does `hay` start with `needle`? -/
def startsWith : List Char → List Char → Bool
  | [], _ => true
  | _ :: _, [] => false
  | a :: as, b :: bs => a = b && startsWith as bs

/-- Model of Go `strings.Index hay needle`: index of the first occurrence of
`needle` in `hay`, or `none` (Go returns -1). -/
def firstIdx (needle : List Char) : List Char → Option Nat
  | [] => if startsWith needle [] then some 0 else none
  | hay@(_ :: rest) =>
    if startsWith needle hay then some 0
    else (firstIdx needle rest).map (· + 1)

/-- Model of Go `unicode.IsSpace` (the white-space code points Go trims). -/
def goIsSpace (c : Char) : Bool :=
  c = ' ' || c = '\t' || c = '\n' || c = Char.ofNat 0x0B || c = Char.ofNat 0x0C ||
  c = '\r' || c = Char.ofNat 0x85 || c = Char.ofNat 0xA0 || c = Char.ofNat 0x1680 ||
  (0x2000 ≤ c.toNat && c.toNat ≤ 0x200A) || c = Char.ofNat 0x2028 || c = Char.ofNat 0x2029 ||
  c = Char.ofNat 0x202F || c = Char.ofNat 0x205F || c = Char.ofNat 0x3000

/-- Model of Go `strings.TrimSpace`: drop white space from both ends. -/
def goTrimSpace (s : List Char) : List Char :=
  ((s.dropWhile goIsSpace).reverse.dropWhile goIsSpace).reverse

/-- Model of Go `strings.Split s sep` for a single-character separator.
Splitting the empty string yields one empty field, as in Go. -/
def goSplitChar (sep : Char) : List Char → List (List Char)
  | [] => [[]]
  | c :: cs =>
    if c = sep then [] :: goSplitChar sep cs
    else
      match goSplitChar sep cs with
      | [] => [[c]]
      | h :: t => (c :: h) :: t

/-- Helper for Go `strings.SplitN s sep 2`: split at the first occurrence of
`sep`, returning `none` when `sep` does not occur. -/
def splitFirst (sep : Char) : List Char → Option (List Char × List Char)
  | [] => none
  | c :: cs =>
    if c = sep then some ([], cs)
    else (splitFirst sep cs).map (fun p => (c :: p.1, p.2))

/-- Byte-wise lexicographic string comparison, as used by Go `sort.Strings`
(true iff `a` sorts no later than `b`). -/
def lexLe : List Char → List Char → Bool
  | [], _ => true
  | _ :: _, [] => false
  | a :: as, b :: bs => if a = b then lexLe as bs else decide (a < b)

/-- Insert a string into a `lexLe`-sorted list, keeping it sorted. -/
def insertStr (x : List Char) : List (List Char) → List (List Char)
  | [] => [x]
  | y :: ys => if lexLe x y then x :: y :: ys else y :: insertStr x ys

/-- Model of Go `sort.Strings`: produce the `lexLe`-sorted permutation of the
input (insertion sort; `sort.Strings` is specified only up to sortedness and
permutation, which determine the result for a total order). -/
def sortStrs : List (List Char) → List (List Char)
  | [] => []
  | x :: xs => insertStr x (sortStrs xs)

/-- Adjacent-pair sortedness check for a list of strings. -/
def pairsSorted : List (List Char) → Bool
  | [] => true
  | [_] => true
  | x :: y :: rest => lexLe x y && pairsSorted (y :: rest)

/-! ## git.go: DefaultBranch output parsing -/

/-- Model of the parsing step of `Repo.DefaultBranch` (git.go): given the
output of the successful `git symbolic-ref refs/remotes/origin/HEAD`
invocation, trim it, split on "/", fail if there are no parts, and
otherwise return the last part. -/
def defaultBranchParse (out : List Char) : Except String (List Char) :=
  let parts := goSplitChar '/' (goTrimSpace out)
  if parts.isEmpty then Except.error "could not parse default branch"
  else Except.ok (parts.getLastD [])

/-- Model of `Repo.DefaultBranch` (git.go lines 25-35): run the symbolic-ref
invocation (its result is the oracle input) and parse its output. -/
def defaultBranch (invocation : Except String (List Char)) : Except String (List Char) :=
  match invocation with
  | Except.error e => Except.error e
  | Except.ok out => defaultBranchParse out

/-- The last "/"-separated segment of the trimmed symbolic-ref output. -/
def lastSegment (out : List Char) : List Char :=
  (goSplitChar '/' (goTrimSpace out)).getLastD []

/-! ## repoPathToURL (sync.go lines 341-350) -/

/-- Model of `repoPathToURL`: split the identifier at the first "/", return
"" if there is no "/", and otherwise build the clone URL.  The
`githubActionsEnv` argument is the value of the GITHUB_ACTIONS environment
variable; the code tests it against the empty string. -/
def repoPathToURL (githubActionsEnv : List Char) (repoPath : List Char) : List Char :=
  match splitFirst '/' repoPath with
  | none => []
  | some (host, rest) =>
    if githubActionsEnv ≠ [] then
      "https://".toList ++ host ++ ['/'] ++ rest ++ ".git".toList
    else
      "git@".toList ++ host ++ [':'] ++ rest ++ ".git".toList

/-! ## Repository synchronizer (sync.go lines 94-247)

One repository's interaction with git is modelled by an oracle record
`RepoEnv` giving the result each backend invocation would return.  The
worker pool (`parahelpers`) is modelled sequentially; its `Wait` returns
the first worker error and `run` then returns that error (`processRepo`
checks `ctx.Done()` for exactly this cancellation), so the fold below is
fail-fast.  `os.RemoveAll` in the orphan sweep is modelled as always
succeeding, and the trailing `updateGitignore` call is modelled separately
at the content level. -/

/-- Outcome results of the backend git invocations for one repository
(an oracle for the external git process): `none` / `Except.ok` means the
invocation succeeds, `some e` / `Except.error e` that it fails with
diagnostic `e`. -/
structure RepoEnv where
  existsOnDisk : Bool
  cloneRes : Option String
  gitRepo : Bool
  defBranchRes : Except String String
  curBranchRes : Except String String
  dirtyRes : Except String Bool
  changesSummary : String
  pullRes : Except String Bool
  stashRes : Option String
  unstashRes : Option String
  switchRes : Option String

/-- Entries appended to the shared Result by `processRepo` (types.go:
RepoResult and SkippedRepo values). -/
inductive ResultEntry
  | cloned (path : String)
  | updated (path : String) (detail : String)
  | skipped (path : String) (reason detail : String)
  deriving DecidableEq

/-- Backend operations, recorded in the order `processRepo` attempts them
(used to state that no pull is attempted on a skip). -/
inductive GitOp
  | statDisk | cloneOp | isGitRepoOp | defaultBranchOp | currentBranchOp
  | statusOp | summaryOp | pullOp | stashOp | unstashOp | switchOp (branch : String)
  deriving DecidableEq

/-- Tail of the force branch after the optional stash and switch steps
(sync.go lines 227-244): always pull, append "pulled" if the head changed,
unstash if a stash was taken (failure is fatal to this repository), and
record Updated when the detail trail is non-empty. -/
def forcePull (localPath : String) (stashed : Bool) (details : List String)
    (ops : List GitOp) (env : RepoEnv) :
    Except String (List ResultEntry) × List GitOp :=
  match env.pullRes with
  | Except.error e => (Except.error (localPath ++ ": pull: " ++ e), ops ++ [GitOp.pullOp])
  | Except.ok changed =>
    let details1 := if changed then details ++ ["pulled"] else details
    let ops1 := ops ++ [GitOp.pullOp]
    if stashed then
      match env.unstashRes with
      | some e => (Except.error (localPath ++ ": unstash: " ++ e), ops1 ++ [GitOp.unstashOp])
      | none =>
        let details2 := details1 ++ ["unstashed"]
        (Except.ok (if details2.length > 0 then
            [ResultEntry.updated localPath (String.intercalate ", " details2)] else []),
          ops1 ++ [GitOp.unstashOp])
    else
      (Except.ok (if details1.length > 0 then
          [ResultEntry.updated localPath (String.intercalate ", " details1)] else []),
        ops1)

/-- Optional switch-branch step of the force branch (sync.go lines
221-226). -/
def forceSwitch (localPath defBranch curBranch : String) (stashed : Bool)
    (details : List String) (ops : List GitOp) (env : RepoEnv) :
    Except String (List ResultEntry) × List GitOp :=
  if curBranch ≠ defBranch then
    match env.switchRes with
    | some e => (Except.error (localPath ++ ": switch branch: " ++ e),
        ops ++ [GitOp.switchOp defBranch])
    | none => forcePull localPath stashed (details ++ ["switched to " ++ defBranch])
        (ops ++ [GitOp.switchOp defBranch]) env
  else forcePull localPath stashed details ops env

/-- Model of `processRepo` (sync.go lines 139-247) for one (local path,
remote identifier) pair.  Returns the per-repository result entries (or the
error the Go function returns) together with the trace of backend
operations attempted. -/
def processRepo (force : Bool) (localPath : String) (env : RepoEnv) :
    Except String (List ResultEntry) × List GitOp :=
  if env.existsOnDisk = false then
    match env.cloneRes with
    | some e => (Except.error ("clone " ++ localPath ++ ": " ++ e),
        [GitOp.statDisk, GitOp.cloneOp])
    | none => (Except.ok [ResultEntry.cloned localPath], [GitOp.statDisk, GitOp.cloneOp])
  else if env.gitRepo = false then
    (Except.error (localPath ++ ": not a git repo"), [GitOp.statDisk, GitOp.isGitRepoOp])
  else
    match env.defBranchRes with
    | Except.error e => (Except.error (localPath ++ ": get default branch: " ++ e),
        [GitOp.statDisk, GitOp.isGitRepoOp, GitOp.defaultBranchOp])
    | Except.ok defBranch =>
      match env.curBranchRes with
      | Except.error e => (Except.error (localPath ++ ": get current branch: " ++ e),
          [GitOp.statDisk, GitOp.isGitRepoOp, GitOp.defaultBranchOp, GitOp.currentBranchOp])
      | Except.ok curBranch =>
        match env.dirtyRes with
        | Except.error e => (Except.error (localPath ++ ": check uncommitted changes: " ++ e),
            [GitOp.statDisk, GitOp.isGitRepoOp, GitOp.defaultBranchOp, GitOp.currentBranchOp,
             GitOp.statusOp])
        | Except.ok dirty =>
          let ops0 := [GitOp.statDisk, GitOp.isGitRepoOp, GitOp.defaultBranchOp,
            GitOp.currentBranchOp, GitOp.statusOp]
          if force = false then
            if dirty then
              (Except.ok [ResultEntry.skipped localPath "uncommitted changes" env.changesSummary],
                ops0 ++ [GitOp.summaryOp])
            else if curBranch ≠ defBranch then
              (Except.ok [ResultEntry.skipped localPath "non-default branch" ("on " ++ curBranch)],
                ops0)
            else
              match env.pullRes with
              | Except.error e => (Except.error (localPath ++ ": pull: " ++ e),
                  ops0 ++ [GitOp.pullOp])
              | Except.ok changed =>
                (Except.ok (if changed then [ResultEntry.updated localPath "pulled"] else []),
                  ops0 ++ [GitOp.pullOp])
          else
            if dirty then
              match env.stashRes with
              | some e => (Except.error (localPath ++ ": stash: " ++ e),
                  ops0 ++ [GitOp.stashOp])
              | none => forceSwitch localPath defBranch curBranch true ["stashed"]
                  (ops0 ++ [GitOp.stashOp]) env
            else forceSwitch localPath defBranch curBranch false [] ops0 env

/-- Model of the shared Result being aggregated (types.go).  The first,
concurrent version of `run` never appends to Warnings; the field is kept to
mirror the struct. -/
structure GoResult where
  updated : List (String × String)
  cloned : List String
  removed : List String
  skipped : List (String × String × String)
  warnings : List String
  deriving DecidableEq

def emptyResult : GoResult := ⟨[], [], [], [], []⟩

/-- Append one `ResultEntry` into the aggregated Result (the mutex-guarded
appends in `processRepo`). -/
def applyEntry (r : GoResult) : ResultEntry → GoResult
  | ResultEntry.cloned p => { r with cloned := r.cloned ++ [p] }
  | ResultEntry.updated p d => { r with updated := r.updated ++ [(p, d)] }
  | ResultEntry.skipped p reason d => { r with skipped := r.skipped ++ [(p, reason, d)] }

/-- Per-repository phase of `run`: process each expected pair; the first
`processRepo` error aborts (the pool's `Wait` returns it). -/
def runRepos (force : Bool) : List (String × RepoEnv) → GoResult → Except String GoResult
  | [], acc => Except.ok acc
  | (p, env) :: rest, acc =>
    match (processRepo force p env).1 with
    | Except.error e => Except.error e
    | Except.ok entries => runRepos force rest (entries.foldl applyEntry acc)

/-- Model of `run` (sync.go lines 94-137): process all expected pairs, then
sweep the on-disk checkouts (`disk` is what `findAllGitRepos` returns),
removing exactly those whose path was not stored in `existing` - which,
when every pair was processed, holds precisely the expected local paths. -/
def runModel (force : Bool) (pairs : List (String × RepoEnv)) (disk : List String) :
    Except String GoResult :=
  match runRepos force pairs emptyResult with
  | Except.error e => Except.error e
  | Except.ok res =>
    Except.ok { res with
      removed := res.removed ++ disk.filter (fun r => !((pairs.map Prod.fst).contains r)) }

/-! ## Concrete oracle records used as witnesses and counterexamples -/

/-- An existing, clean checkout on its default branch, with every backend
operation succeeding and the pull not changing the head. -/
def envClean : RepoEnv :=
  { existsOnDisk := true, cloneRes := none, gitRepo := true,
    defBranchRes := Except.ok "main", curBranchRes := Except.ok "main",
    dirtyRes := Except.ok false, changesSummary := "no changes",
    pullRes := Except.ok false, stashRes := none, unstashRes := none,
    switchRes := none }

/-- A missing checkout whose clone fails. -/
def envCloneFail : RepoEnv :=
  { envClean with existsOnDisk := false, cloneRes := some "boom" }

/-- A dirty checkout on the default branch whose pull brings a new head but
whose final unstash fails with a conflict. -/
def envUnstashFail : RepoEnv :=
  { envClean with
    dirtyRes := Except.ok true
    pullRes := Except.ok true
    unstashRes := some "conflict" }

/-- A dirty checkout on a non-default branch where every force step
succeeds and the pull changes the head. -/
def envForceAll : RepoEnv :=
  { envClean with
    curBranchRes := Except.ok "dev"
    dirtyRes := Except.ok true
    changesSummary := "1 modified"
    pullRes := Except.ok true }

/-- A clean checkout sitting on a non-default branch. -/
def envNonDefault : RepoEnv :=
  { envClean with curBranchRes := Except.ok "dev" }

/-- Local path an entry is about. -/
def entryPath : ResultEntry → String
  | ResultEntry.cloned p => p
  | ResultEntry.updated p _ => p
  | ResultEntry.skipped p _ _ => p

/-! ## updateGitignore (sync.go lines 352-401) -/

/-- Start marker line of the managed block (sync.go line 353). -/
def gitignoreStart : List Char :=
  "# Managed by gitjoin - do not edit this section".toList

/-- End marker line of the managed block (sync.go line 354). -/
def gitignoreEnd : List Char := "# End gitjoin managed section".toList

/-- Entry lines of the managed block: each expected local path suffixed with
"/" (filepath.ToSlash is the identity on the slash-separated paths modelled
here), then sorted as by `sort.Strings`. -/
def entryLines (paths : List (List Char)) : List (List Char) :=
  sortStrs (paths.map (fun p => p ++ ['/']))

/-- Body of the managed block: the entry lines, each newline-terminated. -/
def managedBody (paths : List (List Char)) : List Char :=
  ((entryLines paths).map (fun p => p ++ ['\n'])).flatten

/-- The full managed block: start marker line, body, end marker line. -/
def managedBlock (paths : List (List Char)) : List Char :=
  gitignoreStart ++ ['\n'] ++ (managedBody paths ++ (gitignoreEnd ++ ['\n']))

/-- Offset of the end marker inside the managed block. -/
def managedEndPos (paths : List (List Char)) : Nat :=
  gitignoreStart.length + 1 + (managedBody paths).length

/-- Append branch of `updateGitignore` (sync.go lines 392-397): ensure the
existing content ends in a newline, then append a blank line and the
managed block. -/
def appendManaged (managed existing : List Char) : List Char :=
  (if existing.getLast? = some '\n' then existing else existing ++ ['\n']) ++
    ('\n' :: managed)

/-- Model of the content transformation performed by `updateGitignore`
(sync.go lines 357-400): `existing` is the current content of the target
ignore file (empty when the file does not exist) and the result is the
content written back.  When both markers occur with the first end-marker
occurrence after the first start-marker occurrence, the region from the
start marker through the end marker (plus one following newline, if
present) is replaced by the regenerated block; otherwise the block is
appended. -/
def updateGitignoreContent (paths : List (List Char)) (existing : List Char) : List Char :=
  let managed := managedBlock paths
  if existing.length = 0 then managed
  else
    match firstIdx gitignoreStart existing, firstIdx gitignoreEnd existing with
    | some s, some e =>
      if s < e then
        let e1 := e + gitignoreEnd.length
        let e2 := if (existing.drop e1).head? = some '\n' then e1 + 1 else e1
        existing.take s ++ (managed ++ existing.drop e2)
      else appendManaged managed existing
    | some _, none => appendManaged managed existing
    | none, _ => appendManaged managed existing

/-! ## filepath.Match (Go path/filepath, Unix rules) and collectExpectedRepos

The glob matcher is transliterated from Go's `filepath.Match` with
`Separator = '/'` (no Windows special-casing).  The bounded loops of the Go
code are modelled with an explicit fuel argument; every loop consumes at
least one character of the quantity its fuel is derived from, so the fuel
supplied at each call site (length + 1) can never run out, and running out
is mapped to the bad-pattern error.  Rune decoding is the identity on
`List Char` (a `Char` is one code point); the `utf8.RuneError` check of
`getEsc` has no analogue since Lean chars are always valid code points. -/

/-- Leading-star loop of `scanChunk`: consume the stars in front of the
pattern, reporting whether there was at least one. -/
def stripStars : List Char → Bool × List Char
  | [] => (false, [])
  | c :: cs => if c = '*' then (true, (stripStars cs).2) else (false, c :: cs)

/-- Scan loop of `scanChunk`: split off everything up to (not including)
the next star that is outside a character class; a backslash escapes the
following character. -/
def scanChunkCore (inrange : Bool) : List Char → List Char × List Char
  | [] => ([], [])
  | c :: cs =>
    if c = '\\' then
      match cs with
      | [] => ([c], [])
      | d :: ds =>
        let r := scanChunkCore inrange ds
        (c :: d :: r.1, r.2)
    else if c = '[' then
      let r := scanChunkCore true cs
      (c :: r.1, r.2)
    else if c = ']' then
      let r := scanChunkCore false cs
      (c :: r.1, r.2)
    else if c = '*' ∧ inrange = false then
      ([], c :: cs)
    else
      let r := scanChunkCore inrange cs
      (c :: r.1, r.2)

/-- `scanChunk pattern` = (star, chunk, rest). -/
def scanChunk (pattern : List Char) : Bool × List Char × List Char :=
  let s := stripStars pattern
  let r := scanChunkCore false s.2
  (s.1, r.1, r.2)

/-- `getEsc`: read one possibly-escaped character of a character class;
bad pattern when the class is malformed or unterminated. -/
def getEsc : List Char → Except Unit (Char × List Char)
  | [] => Except.error ()
  | c :: cs =>
    if c = '-' ∨ c = ']' then Except.error ()
    else if c = '\\' then
      match cs with
      | [] => Except.error ()
      | d :: ds => if ds.isEmpty then Except.error () else Except.ok (d, ds)
    else if cs.isEmpty then Except.error () else Except.ok (c, cs)

/-- Range-parsing loop of `matchChunk`'s character-class case: accumulate
whether any lo-hi range contains `r` until the closing bracket. -/
def parseRanges (fuel : Nat) (r : Char) (chunk : List Char) (nrange : Nat)
    (matched : Bool) : Except Unit (Bool × List Char) :=
  match fuel with
  | 0 => Except.error ()
  | fuel' + 1 =>
    if chunk.head? = some ']' ∧ 0 < nrange then Except.ok (matched, chunk.tail)
    else
      match getEsc chunk with
      | Except.error _ => Except.error ()
      | Except.ok (lo, rest1) =>
        match rest1 with
        | '-' :: rest2 =>
          match getEsc rest2 with
          | Except.error _ => Except.error ()
          | Except.ok (hi, rest3) =>
            parseRanges fuel' r rest3 (nrange + 1)
              (matched || (decide (lo ≤ r) && decide (r ≤ hi)))
        | _ =>
          parseRanges fuel' r rest1 (nrange + 1)
            (matched || (decide (lo ≤ r) && decide (r ≤ lo)))

/-- `matchChunk`: match the chunk against the beginning of `s`, returning
the unmatched remainder of `s` and whether it matched; syntax errors are
reported even after the match has already failed (`failed` flag), as in Go
since 1.16. -/
def matchChunk (fuel : Nat) (failed : Bool) (chunk s : List Char) :
    Except Unit (List Char × Bool) :=
  match fuel with
  | 0 => Except.error ()
  | fuel' + 1 =>
    match chunk with
    | [] => if failed then Except.ok ([], false) else Except.ok (s, true)
    | c :: cs =>
      let failed1 := if failed = false ∧ s = [] then true else failed
      if c = '[' then
        let r := if failed1 = false then s.headD (Char.ofNat 0) else Char.ofNat 0
        let s2 := if failed1 = false then s.tail else s
        let neg :=
          match cs with
          | '^' :: rest => (true, rest)
          | _ => (false, cs)
        match parseRanges (neg.2.length + 1) r neg.2 0 false with
        | Except.error _ => Except.error ()
        | Except.ok (matched, cs3) =>
          let failed2 := if matched = neg.1 then true else failed1
          matchChunk fuel' failed2 cs3 s2
      else if c = '?' then
        let failed2 :=
          if failed1 = false ∧ s.headD (Char.ofNat 0) = '/' then true else failed1
        let s2 := if failed1 = false then s.tail else s
        matchChunk fuel' failed2 cs s2
      else if c = '\\' then
        match cs with
        | [] => Except.error ()
        | d :: ds =>
          let failed2 :=
            if failed1 = false ∧ ¬(d = s.headD (Char.ofNat 0)) then true else failed1
          let s2 := if failed1 = false then s.tail else s
          matchChunk fuel' failed2 ds s2
      else
        let failed2 :=
          if failed1 = false ∧ ¬(c = s.headD (Char.ofNat 0)) then true else failed1
        let s2 := if failed1 = false then s.tail else s
        matchChunk fuel' failed2 cs s2

/-- Star-backtracking loop of `Match`: skip one more character of the name
(never a separator) and retry the chunk.  Returns the new name on success
(continue with the rest of the pattern), `none` when the name is
exhausted. -/
def starLoop (fuel : Nat) (chunk rest name : List Char) :
    Except Unit (Option (List Char)) :=
  match fuel with
  | 0 => Except.error ()
  | fuel' + 1 =>
    match name with
    | [] => Except.ok none
    | c :: cs =>
      if c = '/' then Except.ok none
      else
        match matchChunk (chunk.length + 1) false chunk cs with
        | Except.error _ => Except.error ()
        | Except.ok (t, ok) =>
          if ok = true then
            if rest = [] ∧ ¬(t = []) then starLoop fuel' chunk rest cs
            else Except.ok (some t)
          else starLoop fuel' chunk rest cs

/-- Trailing syntax validation of `Match`: before returning an unmatched
result, scan the remaining pattern and surface any bad-pattern error. -/
def validateRest (fuel : Nat) (pattern : List Char) : Except Unit Bool :=
  match fuel with
  | 0 => Except.error ()
  | fuel' + 1 =>
    match pattern with
    | [] => Except.ok false
    | _ :: _ =>
      let sc := scanChunk pattern
      match matchChunk (sc.2.1.length + 1) false sc.2.1 [] with
      | Except.error _ => Except.error ()
      | Except.ok _ => validateRest fuel' sc.2.2

/-- Main loop of `filepath.Match`. -/
def goMatchFuel (fuel : Nat) (pattern name : List Char) : Except Unit Bool :=
  match fuel with
  | 0 => Except.error ()
  | fuel' + 1 =>
    match pattern with
    | [] => Except.ok (decide (name = []))
    | _ :: _ =>
      let sc := scanChunk pattern
      if sc.1 = true ∧ sc.2.1 = [] then
        Except.ok (decide ('/' ∉ name))
      else
        match matchChunk (sc.2.1.length + 1) false sc.2.1 name with
        | Except.error _ => Except.error ()
        | Except.ok (t, ok) =>
          if ok = true ∧ (t = [] ∨ ¬(sc.2.2 = [])) then
            goMatchFuel fuel' sc.2.2 t
          else
            if sc.1 = true then
              match starLoop (name.length + 1) sc.2.1 sc.2.2 name with
              | Except.error _ => Except.error ()
              | Except.ok (some t2) => goMatchFuel fuel' sc.2.2 t2
              | Except.ok none => validateRest (sc.2.2.length + 1) sc.2.2
            else validateRest (sc.2.2.length + 1) sc.2.2

/-- Model of Go `filepath.Match pattern name` (Unix).  `Except.error ()` is
`ErrBadPattern`. -/
def goMatch (pattern name : List Char) : Except Unit Bool :=
  goMatchFuel (pattern.length + 1) pattern name

/-- Model of Go `filepath.Base` (Unix): strip trailing slashes, keep the
part after the last remaining slash; "" gives ".", all-slashes gives
"/". -/
def goBase (path : List Char) : List Char :=
  if path = [] then ['.']
  else
    let p1 := (path.reverse.dropWhile (fun c => c = '/')).reverse
    let p2 := (p1.reverse.takeWhile (fun c => ¬(c = '/'))).reverse
    if p2 = [] then ['/'] else p2

/-- One step of the lexical cleaning of a relative path: skip empty and "."
segments, let ".." pop the last real segment (or pile up at the front). -/
def cleanPush (stack : List (List Char)) (seg : List Char) : List (List Char) :=
  if seg = [] ∨ seg = ['.'] then stack
  else if seg = ['.', '.'] then
    match stack with
    | [] => [seg]
    | top :: rest => if top = ['.', '.'] then seg :: stack else rest
  else seg :: stack

/-- Join segments back with "/". -/
def joinSegs : List (List Char) → List Char
  | [] => []
  | [s] => s
  | s :: rest => s ++ '/' :: joinSegs rest

/-- Model of Go `filepath.Clean` on relative (non-rooted) paths, in the
segment form of its lexical algorithm. -/
def goCleanRel (path : List Char) : List Char :=
  let segs := (goSplitChar '/' path).foldl cleanPush []
  if segs = [] then ['.'] else joinSegs segs.reverse

/-- Model of Go `filepath.Join relDir name` for the non-empty relative
arguments used here. -/
def goJoin (a b : List Char) : List Char := goCleanRel (a ++ '/' :: b)

/-- Local path derived for one identifier of a manifest (sync.go lines
274-281): base name of the identifier, joined under the manifest's
directory unless that directory is the root itself. -/
def deriveLocalPath (relDir repo : List Char) : List Char :=
  let repoName := goBase repo
  if relDir = ['.'] then repoName else goJoin relDir repoName

/-- Model of `parseGitjoinFile` (sync.go lines 322-339) on the file's
lines: trim each line, skip blank lines and comment lines. -/
def parseGitjoinLines (lines : List (List Char)) : List (List Char) :=
  (lines.map goTrimSpace).filter
    (fun l => !(l.isEmpty || startsWith ['#'] l))

/-- Write into the expected map (modelled as an association list with Go
map semantics: writing an existing key overwrites its value). -/
def upsert (k v : List Char) :
    List (List Char × List Char) → List (List Char × List Char)
  | [] => [(k, v)]
  | (k2, v2) :: rest =>
    if k2 = k then (k, v) :: rest else (k2, v2) :: upsert k v rest

/-- Process the parsed identifiers of one manifest (sync.go lines
274-294): derive each local path, apply the optional glob filter (a bad
pattern aborts the whole collection), aggregate last-write-wins. -/
def collectRepos (pattern relDir : List Char) :
    List (List Char) → List (List Char × List Char) →
      Except Unit (List (List Char × List Char))
  | [], acc => Except.ok acc
  | repo :: rest, acc =>
    let localPath := deriveLocalPath relDir repo
    if pattern = [] then collectRepos pattern relDir rest (upsert localPath repo acc)
    else
      match goMatch pattern localPath with
      | Except.error _ => Except.error ()
      | Except.ok true => collectRepos pattern relDir rest (upsert localPath repo acc)
      | Except.ok false => collectRepos pattern relDir rest acc

/-- Fold of `collectExpectedRepos` over the manifests found by the walk
(each manifest given as its directory relative to the root, plus its raw
lines). -/
def collectAll (pattern : List Char) :
    List (List Char × List (List Char)) → List (List Char × List Char) →
      Except Unit (List (List Char × List Char))
  | [], acc => Except.ok acc
  | (relDir, lines) :: rest, acc =>
    match collectRepos pattern relDir (parseGitjoinLines lines) acc with
    | Except.error e => Except.error e
    | Except.ok acc2 => collectAll pattern rest acc2

/-- Model of `collectExpectedRepos` (sync.go lines 249-299). -/
def collectExpectedRepos (pattern : List Char)
    (manifests : List (List Char × List (List Char))) :
    Except Unit (List (List Char × List Char)) :=
  collectAll pattern manifests []



/-! ## Basic lemmas about the string utilities -/

theorem startsWith_nil_left (h : List Char) : startsWith [] h = true := by
  cases h <;> rfl

theorem startsWith_iff_take (n h : List Char) :
    startsWith n h = true ↔ h.take n.length = n := by
  induction n generalizing h with
  | nil => simp [startsWith_nil_left]
  | cons a as ih =>
    cases h with
    | nil => simp [startsWith]
    | cons b bs =>
      simp only [startsWith, List.length_cons, List.take_succ_cons, Bool.and_eq_true,
        decide_eq_true_eq, List.cons.injEq, ih bs]
      constructor
      · rintro ⟨h1, h2⟩; exact ⟨h1.symm, h2⟩
      · rintro ⟨h1, h2⟩; exact ⟨h1.symm, h2⟩

theorem startsWith_length_le {n h : List Char} (hs : startsWith n h = true) :
    n.length ≤ h.length := by
  have := (startsWith_iff_take n h).mp hs
  have hlen : (h.take n.length).length = n.length := by rw [this]
  simp only [List.length_take] at hlen
  omega

theorem startsWith_append_of_startsWith {n a : List Char} (b : List Char)
    (hs : startsWith n a = true) : startsWith n (a ++ b) = true := by
  have hle := startsWith_length_le hs
  rw [startsWith_iff_take] at hs ⊢
  rw [List.take_append_of_le_length hle, hs]

theorem startsWith_of_append_left {n a b : List Char}
    (hs : startsWith n (a ++ b) = true) (hle : n.length ≤ a.length) :
    startsWith n a = true := by
  rw [startsWith_iff_take] at hs ⊢
  rwa [List.take_append_of_le_length hle] at hs

theorem startsWith_refl (l : List Char) : startsWith l l = true := by
  rw [startsWith_iff_take]; simp

/-- A match yields the character at each offset of the occurrence. -/
theorem startsWith_getElem? {n h : List Char} (hs : startsWith n h = true)
    (k : Nat) (hk : k < n.length) : h[k]? = n[k]? := by
  have ht := (startsWith_iff_take n h).mp hs
  have : (h.take n.length)[k]? = n[k]? := by rw [ht]
  rwa [List.getElem?_take_of_lt hk] at this

theorem firstIdx_nil_eq (n : List Char) :
    firstIdx n [] = if startsWith n [] = true then some 0 else none := rfl

theorem firstIdx_cons_eq (n : List Char) (c : Char) (rest : List Char) :
    firstIdx n (c :: rest) =
      if startsWith n (c :: rest) = true then some 0
      else (firstIdx n rest).map (· + 1) := rfl

theorem firstIdx_eq_some_spec {n h : List Char} {i : Nat}
    (hf : firstIdx n h = some i) :
    startsWith n (h.drop i) = true ∧ ∀ q < i, startsWith n (h.drop q) = false := by
  induction h generalizing i with
  | nil =>
    by_cases hsw : startsWith n [] = true
    · rw [firstIdx_nil_eq, if_pos hsw] at hf
      obtain rfl : (0 : Nat) = i := Option.some.inj hf
      exact ⟨hsw, by omega⟩
    · rw [firstIdx_nil_eq, if_neg hsw] at hf
      exact absurd hf (by simp)
  | cons c rest ih =>
    by_cases hsw : startsWith n (c :: rest) = true
    · rw [firstIdx_cons_eq, if_pos hsw] at hf
      obtain rfl : (0 : Nat) = i := Option.some.inj hf
      exact ⟨hsw, by omega⟩
    · rw [firstIdx_cons_eq, if_neg hsw, Option.map_eq_some'] at hf
      obtain ⟨j, hj, hij⟩ := hf
      subst hij
      obtain ⟨h1, h2⟩ := ih hj
      refine ⟨by simpa using h1, ?_⟩
      intro q hq
      cases q with
      | zero => simpa using Bool.eq_false_iff.mpr hsw
      | succ q' =>
        have : q' < j := by omega
        simpa using h2 q' this

theorem firstIdx_eq_some_of {n h : List Char} {i : Nat}
    (hocc : startsWith n (h.drop i) = true)
    (hmin : ∀ q < i, startsWith n (h.drop q) = false) :
    firstIdx n h = some i := by
  induction h generalizing i with
  | nil =>
    cases i with
    | zero =>
      simp only [List.drop_nil] at hocc
      rw [firstIdx_nil_eq, if_pos hocc]
    | succ i' =>
      exfalso
      have h0 := hmin 0 (by omega)
      simp only [List.drop_nil] at hocc h0
      rw [hocc] at h0; exact Bool.true_eq_false.mp h0
  | cons c rest ih =>
    cases i with
    | zero =>
      simp only [List.drop_zero] at hocc
      rw [firstIdx_cons_eq, if_pos hocc]
    | succ i' =>
      have h0 := hmin 0 (by omega)
      simp only [List.drop_zero] at h0
      have hrec : firstIdx n rest = some i' := by
        apply ih
        · simpa using hocc
        · intro q hq
          have := hmin (q + 1) (by omega)
          simpa using this
      rw [firstIdx_cons_eq, if_neg (by simp [h0]), hrec]
      rfl

theorem firstIdx_eq_none_spec {n h : List Char}
    (hf : firstIdx n h = none) (q : Nat) :
    startsWith n (h.drop q) = false := by
  induction h generalizing q with
  | nil =>
    by_cases hsw : startsWith n [] = true
    · rw [firstIdx_nil_eq, if_pos hsw] at hf; exact absurd hf (by simp)
    · simpa using Bool.eq_false_iff.mpr hsw
  | cons c rest ih =>
    by_cases hsw : startsWith n (c :: rest) = true
    · rw [firstIdx_cons_eq, if_pos hsw] at hf; exact absurd hf (by simp)
    · rw [firstIdx_cons_eq, if_neg hsw, Option.map_eq_none'] at hf
      cases q with
      | zero => simpa using Bool.eq_false_iff.mpr hsw
      | succ q' => simpa using ih hf q'

theorem firstIdx_le_length {n h : List Char} {i : Nat}
    (hf : firstIdx n h = some i) : i ≤ h.length := by
  obtain ⟨h1, h2⟩ := firstIdx_eq_some_spec hf
  by_contra hgt
  push_neg at hgt
  have hq := h2 h.length hgt
  rw [List.drop_length] at hq
  rw [List.drop_eq_nil_of_le (by omega)] at h1
  rw [h1] at hq
  exact Bool.true_eq_false.mp hq

theorem goSplitChar_ne_nil (sep : Char) (s : List Char) : goSplitChar sep s ≠ [] := by
  cases s with
  | nil => simp [goSplitChar]
  | cons c cs =>
    simp only [goSplitChar]
    by_cases h : c = sep
    · simp [h]
    · simp only [h, if_false]
      cases goSplitChar sep cs <;> simp

theorem splitFirst_append {host rest : List Char} {sep : Char}
    (hhost : sep ∉ host) :
    splitFirst sep (host ++ sep :: rest) = some (host, rest) := by
  induction host with
  | nil => simp [splitFirst]
  | cons c cs ih =>
    simp only [List.mem_cons, not_or] at hhost
    have hcs : ¬(c = sep) := fun h => hhost.1 h.symm
    simp only [List.cons_append, splitFirst, hcs, if_false, List.append_eq,
      ih hhost.2, Option.map_some']

/-! ## Lemmas about the synchronizer model -/

theorem applyEntry_removed (r : GoResult) (e : ResultEntry) :
    (applyEntry r e).removed = r.removed := by
  cases e <;> rfl

theorem foldl_applyEntry_removed (entries : List ResultEntry) (r : GoResult) :
    (entries.foldl applyEntry r).removed = r.removed := by
  induction entries generalizing r with
  | nil => rfl
  | cons e es ih => rw [List.foldl_cons, ih, applyEntry_removed]

theorem runRepos_removed {force : Bool} {pairs : List (String × RepoEnv)}
    {acc res : GoResult} (h : runRepos force pairs acc = Except.ok res) :
    res.removed = acc.removed := by
  induction pairs generalizing acc with
  | nil =>
    simp only [runRepos, Except.ok.injEq] at h
    rw [← h]
  | cons pr rest ih =>
    obtain ⟨p, env⟩ := pr
    simp only [runRepos] at h
    cases hp : (processRepo force p env).1 with
    | error e => rw [hp] at h; exact absurd h (by simp)
    | ok entries =>
      rw [hp] at h
      rw [ih h, foldl_applyEntry_removed]

theorem mem_cloned_applyEntry {r : GoResult} {e : ResultEntry} {p : String}
    (hp : p ∈ (applyEntry r e).cloned) :
    p ∈ r.cloned ∨ e = ResultEntry.cloned p := by
  cases e with
  | cloned q =>
    simp only [applyEntry, List.mem_append, List.mem_singleton] at hp
    cases hp with
    | inl h => exact Or.inl h
    | inr h => exact Or.inr (by rw [h])
  | updated q d => exact Or.inl hp
  | skipped q reason d => exact Or.inl hp

theorem mem_cloned_foldl {entries : List ResultEntry} {r : GoResult} {p : String}
    (hp : p ∈ (entries.foldl applyEntry r).cloned) :
    p ∈ r.cloned ∨ ResultEntry.cloned p ∈ entries := by
  induction entries generalizing r with
  | nil => exact Or.inl hp
  | cons e es ih =>
    rw [List.foldl_cons] at hp
    cases ih hp with
    | inl h =>
      cases mem_cloned_applyEntry h with
      | inl h2 => exact Or.inl h2
      | inr h2 => exact Or.inr (by rw [h2]; exact List.mem_cons_self _ _)
    | inr h => exact Or.inr (List.mem_cons_of_mem _ h)

theorem forcePull_entries_path {p : String} {stashed : Bool} {details : List String}
    {ops : List GitOp} {env : RepoEnv} {entries : List ResultEntry}
    (h : (forcePull p stashed details ops env).1 = Except.ok entries) :
    ∀ ent ∈ entries, entryPath ent = p := by
  intro ent hent
  unfold forcePull at h
  cases hp : env.pullRes with
  | error e => simp [hp] at h
  | ok changed =>
    cases stashed with
    | true =>
      cases hu : env.unstashRes with
      | some e => simp [hp, hu] at h
      | none =>
        cases changed with
        | true =>
          simp [hp, hu] at h
          subst h
          simp only [List.mem_singleton] at hent
          subst hent; rfl
        | false =>
          simp [hp, hu] at h
          subst h
          simp only [List.mem_singleton] at hent
          subst hent; rfl
    | false =>
      cases changed with
      | true =>
        simp [hp] at h
        subst h
        simp only [List.mem_singleton] at hent
        subst hent; rfl
      | false =>
        simp [hp] at h
        subst h
        split at hent
        · simp only [List.mem_singleton] at hent
          subst hent; rfl
        · exact absurd hent (List.not_mem_nil ent)

theorem forceSwitch_entries_path {p defBranch curBranch : String} {stashed : Bool}
    {details : List String} {ops : List GitOp} {env : RepoEnv} {entries : List ResultEntry}
    (h : (forceSwitch p defBranch curBranch stashed details ops env).1 = Except.ok entries) :
    ∀ ent ∈ entries, entryPath ent = p := by
  unfold forceSwitch at h
  by_cases hne : curBranch ≠ defBranch
  · rw [if_pos hne] at h
    cases hs : env.switchRes with
    | some e => simp [hs] at h
    | none =>
      simp only [hs] at h
      exact forcePull_entries_path h
  · rw [if_neg hne] at h
    exact forcePull_entries_path h

theorem processRepo_entries_path {force : Bool} {p : String} {env : RepoEnv}
    {entries : List ResultEntry}
    (h : (processRepo force p env).1 = Except.ok entries) :
    ∀ ent ∈ entries, entryPath ent = p := by
  unfold processRepo at h
  cases hex : env.existsOnDisk with
  | false =>
    simp only [hex, if_true] at h
    cases hc : env.cloneRes with
    | some e => simp [hc] at h
    | none =>
      simp only [hc, Except.ok.injEq] at h
      subst h
      intro ent hent
      simp only [List.mem_singleton] at hent
      subst hent; rfl
  | true =>
    simp only [hex, Bool.true_eq_false, if_false] at h
    cases hg : env.gitRepo with
    | false => simp [hg] at h
    | true =>
      simp only [hg, Bool.true_eq_false, if_false] at h
      cases hd : env.defBranchRes with
      | error e => simp [hd] at h
      | ok defBranch =>
        simp only [hd] at h
        cases hcur : env.curBranchRes with
        | error e => simp [hcur] at h
        | ok curBranch =>
          simp only [hcur] at h
          cases hdirty : env.dirtyRes with
          | error e => simp [hdirty] at h
          | ok dirty =>
            simp only [hdirty] at h
            cases force with
            | false =>
              simp only [if_true] at h
              cases dirty with
              | true =>
                simp only [if_true, Except.ok.injEq] at h
                subst h
                intro ent hent
                simp only [List.mem_singleton] at hent
                subst hent; rfl
              | false =>
                simp only [Bool.false_eq_true, if_false] at h
                by_cases hne : curBranch ≠ defBranch
                · rw [if_pos hne] at h
                  simp only [Except.ok.injEq] at h
                  subst h
                  intro ent hent
                  simp only [List.mem_singleton] at hent
                  subst hent; rfl
                · rw [if_neg hne] at h
                  cases hp : env.pullRes with
                  | error e => simp [hp] at h
                  | ok changed =>
                    simp only [hp, Except.ok.injEq] at h
                    subst h
                    intro ent hent
                    split at hent
                    · simp only [List.mem_singleton] at hent
                      subst hent; rfl
                    · exact absurd hent (List.not_mem_nil ent)
            | true =>
              simp only [Bool.true_eq_false, if_false] at h
              cases dirty with
              | true =>
                simp only [if_true] at h
                cases hs : env.stashRes with
                | some e => simp [hs] at h
                | none =>
                  simp only [hs] at h
                  exact forceSwitch_entries_path h
              | false =>
                simp only [Bool.false_eq_true, if_false] at h
                exact forceSwitch_entries_path h

theorem runRepos_cloned_sub {force : Bool} {pairs : List (String × RepoEnv)}
    {acc res : GoResult} (h : runRepos force pairs acc = Except.ok res) :
    ∀ p ∈ res.cloned, p ∈ acc.cloned ∨ p ∈ pairs.map Prod.fst := by
  induction pairs generalizing acc with
  | nil =>
    simp only [runRepos, Except.ok.injEq] at h
    intro p hp
    rw [← h] at hp
    exact Or.inl hp
  | cons pr rest ih =>
    obtain ⟨q, env⟩ := pr
    simp only [runRepos] at h
    cases hq : (processRepo force q env).1 with
    | error e => rw [hq] at h; exact absurd h (by simp)
    | ok entries =>
      rw [hq] at h
      intro p hp
      cases ih h p hp with
      | inl hacc =>
        cases mem_cloned_foldl hacc with
        | inl h2 => exact Or.inl h2
        | inr h2 =>
          have := processRepo_entries_path hq _ h2
          simp only [entryPath] at this
          subst this
          exact Or.inr (by simp)
      | inr hkeys => exact Or.inr (List.mem_cons_of_mem _ (by simpa using hkeys))

theorem runRepos_append_error (force : Bool) (pairs rest : List (String × RepoEnv))
    (p : String) (env : RepoEnv) (e : String) (acc : GoResult)
    (hok : ∀ pr ∈ pairs, ∃ entries, (processRepo force pr.1 pr.2).1 = Except.ok entries)
    (herr : (processRepo force p env).1 = Except.error e) :
    runRepos force (pairs ++ (p, env) :: rest) acc = Except.error e := by
  induction pairs generalizing acc with
  | nil => simp only [List.nil_append, runRepos, herr]
  | cons q qs ih =>
    obtain ⟨q1, q2⟩ := q
    obtain ⟨entries, hq⟩ := hok (q1, q2) (List.mem_cons_self _ _)
    simp only [List.cons_append, runRepos, hq]
    exact ih _ (fun pr hpr => hok pr (List.mem_cons_of_mem _ hpr))

theorem runModel_error_of_processRepo_error (force : Bool)
    (pairs rest : List (String × RepoEnv)) (disk : List String)
    (p : String) (env : RepoEnv) (e : String)
    (hok : ∀ pr ∈ pairs, ∃ entries, (processRepo force pr.1 pr.2).1 = Except.ok entries)
    (herr : (processRepo force p env).1 = Except.error e) :
    runModel force (pairs ++ (p, env) :: rest) disk = Except.error e := by
  unfold runModel
  rw [runRepos_append_error force pairs rest p env e emptyResult hok herr]

/-! ## Lemmas about the gitignore markers and managed block -/

theorem gitignoreStart_ne_nil : gitignoreStart ≠ [] := by decide

theorem gitignoreEnd_ne_nil : gitignoreEnd ≠ [] := by decide

theorem gitignoreEnd_le_start_length : gitignoreEnd.length ≤ gitignoreStart.length := by
  decide

theorem E_not_prefix_of_S : startsWith gitignoreEnd gitignoreStart = false := by decide

theorem S_borderless : ∀ k, k < gitignoreStart.length → 0 < k →
    startsWith (gitignoreStart.drop k) gitignoreStart = false := by decide

theorem E_drop_not_prefix_of_S : ∀ k, k < gitignoreEnd.length → 0 < k →
    startsWith (gitignoreEnd.drop k) gitignoreStart = false := by decide

theorem hash_not_mem_S_tail : '#' ∉ gitignoreStart.drop 1 := by decide

theorem nl_not_mem_S : '\n' ∉ gitignoreStart := by decide

theorem nl_not_mem_E : '\n' ∉ gitignoreEnd := by decide

theorem startsWith_head {n h : List Char} (hs : startsWith n h = true) (hn : n ≠ []) :
    h.head? = n.head? := by
  cases n with
  | nil => exact absurd rfl hn
  | cons a as =>
    cases h with
    | nil => simp [startsWith] at hs
    | cons b bs =>
      simp only [startsWith, Bool.and_eq_true, decide_eq_true_eq] at hs
      simp [hs.1]

theorem startsWith_of_take {n y : List Char} {m : Nat}
    (h : startsWith n (y.take m) = true) (hm : n.length ≤ m) :
    startsWith n y = true := by
  rw [startsWith_iff_take] at h ⊢
  rw [List.take_take, min_eq_left hm] at h
  exact h

theorem drop_append_ge {a b : List Char} {q : Nat} (hq : a.length ≤ q) :
    (a ++ b).drop q = b.drop (q - a.length) := by
  rw [List.drop_append_eq_append_drop, List.drop_eq_nil_of_le hq, List.nil_append]

theorem drop_append_lt {a b : List Char} {q : Nat} (hq : q ≤ a.length) :
    (a ++ b).drop q = a.drop q ++ b := by
  rw [List.drop_append_eq_append_drop, Nat.sub_eq_zero_of_le hq, List.drop_zero]

theorem startsWith_split {n a b : List Char} {q : Nat}
    (h : startsWith n ((a ++ b).drop q) = true) (hq : q ≤ a.length) :
    (q + n.length ≤ a.length ∧ startsWith n (a.drop q) = true) ∨
    (a.length < q + n.length ∧
      startsWith (n.drop (a.length - q)) b = true) := by
  rw [drop_append_lt hq] at h
  by_cases hle : q + n.length ≤ a.length
  · left
    refine ⟨hle, ?_⟩
    exact startsWith_of_append_left h (by simp only [List.length_drop]; omega)
  · right
    push_neg at hle
    refine ⟨hle, ?_⟩
    have hlen := startsWith_length_le h
    simp only [List.length_append, List.length_drop] at hlen
    have ht := (startsWith_iff_take n (a.drop q ++ b)).mp h
    rw [List.take_append_eq_append_take] at ht
    rw [List.take_of_length_le (by simp only [List.length_drop]; omega)] at ht
    have hdk : n.drop (a.length - q) = b.take (n.length - (a.drop q).length) := by
      rw [← ht, drop_append_ge (by simp only [List.length_drop]; omega)]
      simp [List.length_drop]
    rw [startsWith_iff_take, hdk, List.length_take]
    rcases le_total (n.length - (a.drop q).length) b.length with hbl | hbl
    · rw [min_eq_left hbl]
    · rw [min_eq_right hbl, List.take_length]
      exact (List.take_of_length_le hbl).symm

theorem getElem?_of_startsWith {n h : List Char} {q : Nat}
    (hs : startsWith n (h.drop q) = true) (hn : n ≠ []) :
    h[q]? = n.head? := by
  have h1 := startsWith_head hs hn
  rwa [List.head?_drop] at h1

theorem mem_of_getElem?_eq_some {l : List Char} {i : Nat} {c : Char}
    (h : l[i]? = some c) : c ∈ l := by
  have hi : i < l.length := by
    by_contra hge
    push_neg at hge
    rw [List.getElem?_eq_none hge] at h
    exact Option.noConfusion h
  rw [List.getElem?_eq_getElem hi] at h
  rw [← Option.some.inj h]
  exact List.getElem_mem hi

theorem mem_insertStr {x y : List Char} {l : List (List Char)} :
    x ∈ insertStr y l ↔ x = y ∨ x ∈ l := by
  induction l with
  | nil => simp [insertStr]
  | cons z zs ih =>
    simp only [insertStr]
    by_cases h : lexLe y z = true
    · simp [h]
    · rw [if_neg h]
      simp only [List.mem_cons, ih]
      tauto

theorem mem_sortStrs {x : List Char} {l : List (List Char)} :
    x ∈ sortStrs l ↔ x ∈ l := by
  induction l with
  | nil => simp [sortStrs]
  | cons y ys ih =>
    simp only [sortStrs, mem_insertStr, List.mem_cons, ih]

theorem hash_not_mem_body {paths : List (List Char)}
    (hp : ∀ p ∈ paths, '#' ∉ p) : '#' ∉ managedBody paths := by
  intro hmem
  unfold managedBody at hmem
  rw [List.mem_flatten] at hmem
  obtain ⟨l, hl, hcl⟩ := hmem
  rw [List.mem_map] at hl
  obtain ⟨q, hq, hql⟩ := hl
  unfold entryLines at hq
  rw [mem_sortStrs, List.mem_map] at hq
  obtain ⟨p, hpmem, hpq⟩ := hq
  subst hpq hql
  simp only [List.append_assoc, List.mem_append, List.mem_cons] at hcl
  rcases hcl with hin | hslash
  · exact hp p hpmem hin
  · simp at hslash

theorem managed_decomp (paths : List (List Char)) (post : List Char) :
    managedBlock paths ++ post =
      (gitignoreStart ++ '\n' :: managedBody paths) ++
        (gitignoreEnd ++ '\n' :: post) := by
  simp [managedBlock, List.append_assoc]

theorem A_length (paths : List (List Char)) :
    (gitignoreStart ++ '\n' :: managedBody paths).length = managedEndPos paths := by
  simp only [List.length_append, List.length_cons, managedEndPos]
  omega

theorem hash_pos_in_A {paths : List (List Char)} (hp : ∀ p ∈ paths, '#' ∉ p) :
    ∀ q, (gitignoreStart ++ '\n' :: managedBody paths)[q]? = some '#' → q = 0 := by
  intro q hq
  by_cases h47 : q < gitignoreStart.length
  · rw [List.getElem?_append, if_pos h47] at hq
    by_cases h0 : q = 0
    · exact h0
    · exfalso
      have : (gitignoreStart.drop 1)[q - 1]? = some '#' := by
        rw [List.getElem?_drop]
        rwa [show 1 + (q - 1) = q by omega]
      exact hash_not_mem_S_tail (mem_of_getElem?_eq_some this)
  · exfalso
    push_neg at h47
    rw [List.getElem?_append, if_neg (by omega)] at hq
    rcases Nat.eq_or_lt_of_le h47 with heq | hlt
    · rw [← heq, Nat.sub_self] at hq
      simp at hq
    · have hpos : 0 < q - gitignoreStart.length := by omega
      rw [List.getElem?_cons, if_neg (by omega)] at hq
      exact hash_not_mem_body hp (mem_of_getElem?_eq_some hq)

theorem no_E_in_managed_before_end (paths : List (List Char))
    (hp : ∀ p ∈ paths, '#' ∉ p) (post : List Char) :
    ∀ q, q < managedEndPos paths →
      startsWith gitignoreEnd ((managedBlock paths ++ post).drop q) = false := by
  intro q hq
  by_contra hocc
  rw [Bool.not_eq_false] at hocc
  rw [managed_decomp] at hocc
  have hchar := getElem?_of_startsWith hocc gitignoreEnd_ne_nil
  have hqA : q < (gitignoreStart ++ '\n' :: managedBody paths).length := by
    rw [A_length]; exact hq
  rw [List.getElem?_append, if_pos hqA] at hchar
  have hq0 : q = 0 := hash_pos_in_A hp q (by rw [hchar]; rfl)
  subst hq0
  rw [List.drop_zero] at hocc
  have hocc2 : startsWith gitignoreEnd
      (gitignoreStart ++ ('\n' :: managedBody paths ++ (gitignoreEnd ++ '\n' :: post))) = true := by
    rw [← List.append_assoc]
    exact hocc
  have := startsWith_of_append_left hocc2 gitignoreEnd_le_start_length
  rw [E_not_prefix_of_S] at this
  exact Bool.false_ne_true this

theorem length_managedBlock (paths : List (List Char)) :
    (managedBlock paths).length = managedEndPos paths + gitignoreEnd.length + 1 := by
  simp only [managedBlock, managedEndPos, List.length_append, List.length_cons,
    List.length_nil]
  omega

theorem managedEndPos_pos (paths : List (List Char)) : 0 < managedEndPos paths := by
  simp only [managedEndPos]
  omega

theorem managedBlock_front (paths : List (List Char)) (post : List Char) :
    managedBlock paths ++ post =
      gitignoreStart ++
        ('\n' :: (managedBody paths ++ (gitignoreEnd ++ '\n' :: post))) := by
  simp [managedBlock, List.append_assoc]

theorem managedBlock_drop_end (paths : List (List Char)) (post : List Char) :
    (managedBlock paths ++ post).drop (managedEndPos paths) =
      gitignoreEnd ++ '\n' :: post := by
  rw [managed_decomp, ← A_length paths]
  exact List.drop_left _ _

theorem managedBlock_drop_nl (paths : List (List Char)) (post : List Char) :
    (managedBlock paths ++ post).drop (managedEndPos paths + gitignoreEnd.length) =
      '\n' :: post := by
  have hsplit : managedBlock paths ++ post =
      ((gitignoreStart ++ '\n' :: managedBody paths) ++ gitignoreEnd) ++
        '\n' :: post := by
    simp [managedBlock, List.append_assoc]
  have hlenAE : ((gitignoreStart ++ '\n' :: managedBody paths) ++ gitignoreEnd).length =
      managedEndPos paths + gitignoreEnd.length := by
    simp only [List.length_append, List.length_cons, managedEndPos]
    omega
  rw [hsplit, ← hlenAE]
  exact List.drop_left _ _

/-- Key fixpoint property: applying the updater to a content of the shape
`pre ++ managed block ++ post`, where no marker occurrence starts inside
`pre`, reproduces that content unchanged. -/
theorem updateGitignore_fixpoint (paths : List (List Char)) (pre post : List Char)
    (hpaths : ∀ p ∈ paths, '#' ∉ p)
    (hpreS : ∀ q, q < pre.length →
      startsWith gitignoreStart ((pre ++ (managedBlock paths ++ post)).drop q) = false)
    (hpreE : ∀ q, q < pre.length →
      startsWith gitignoreEnd ((pre ++ (managedBlock paths ++ post)).drop q) = false) :
    updateGitignoreContent paths (pre ++ (managedBlock paths ++ post)) =
      pre ++ (managedBlock paths ++ post) := by
  have hMpos : 0 < (managedBlock paths).length := by
    rw [length_managedBlock]; omega
  have hlen0 : ¬ ((pre ++ (managedBlock paths ++ post)).length = 0) := by
    simp only [List.length_append]
    omega
  have hSocc : startsWith gitignoreStart
      ((pre ++ (managedBlock paths ++ post)).drop pre.length) = true := by
    rw [List.drop_left, managedBlock_front]
    exact startsWith_append_of_startsWith _ (startsWith_refl _)
  have hS : firstIdx gitignoreStart (pre ++ (managedBlock paths ++ post)) =
      some pre.length :=
    firstIdx_eq_some_of hSocc (fun q hq => hpreS q hq)
  have hEocc : startsWith gitignoreEnd
      ((pre ++ (managedBlock paths ++ post)).drop
        (pre.length + managedEndPos paths)) = true := by
    rw [drop_append_ge (by omega), Nat.add_sub_cancel_left, managedBlock_drop_end]
    exact startsWith_append_of_startsWith _ (startsWith_refl _)
  have hE : firstIdx gitignoreEnd (pre ++ (managedBlock paths ++ post)) =
      some (pre.length + managedEndPos paths) := by
    apply firstIdx_eq_some_of hEocc
    intro q hq
    by_cases hql : q < pre.length
    · exact hpreE q hql
    · push_neg at hql
      rw [drop_append_ge hql]
      exact no_E_in_managed_before_end paths hpaths post _ (by omega)
  have hdropNl : (pre ++ (managedBlock paths ++ post)).drop
      (pre.length + managedEndPos paths + gitignoreEnd.length) = '\n' :: post := by
    rw [drop_append_ge (by omega),
      show pre.length + managedEndPos paths + gitignoreEnd.length - pre.length =
        managedEndPos paths + gitignoreEnd.length by omega]
    exact managedBlock_drop_nl paths post
  have hdropAll : (pre ++ (managedBlock paths ++ post)).drop
      (pre.length + managedEndPos paths + gitignoreEnd.length + 1) = post := by
    rw [drop_append_ge (by omega),
      show pre.length + managedEndPos paths + gitignoreEnd.length + 1 - pre.length =
        (managedBlock paths).length by rw [length_managedBlock]; omega]
    exact List.drop_left _ _
  simp only [updateGitignoreContent, hlen0, if_false, hS, hE]
  rw [if_pos (by have := managedEndPos_pos paths; omega)]
  rw [hdropNl]
  simp only [List.head?_cons, if_pos]
  rw [hdropAll, List.take_left]

theorem update_empty (paths : List (List Char)) :
    updateGitignoreContent paths [] = managedBlock paths := by
  simp [updateGitignoreContent]

theorem mem_of_head?_eq_some {l : List Char} {c : Char} (h : l.head? = some c) :
    c ∈ l := by
  cases l with
  | nil => exact absurd h (by simp)
  | cons a as =>
    simp only [List.head?_cons, Option.some.injEq] at h
    simp [h]

/-- No marker occurrence can start inside a prefix region `existing.take i`
when the needle has no occurrence in `existing` before `i` (minimality of a
first index) - an occurrence would either lie inside `existing` before `i`
or span into the managed block, whose start the needle cannot continue
into. -/
theorem no_occ_in_take_pre {n existing : List Char} {i : Nat}
    (paths : List (List Char)) (post : List Char)
    (hi : i ≤ existing.length)
    (hmin : ∀ q, q < i → startsWith n (existing.drop q) = false)
    (hborder : ∀ k, k < n.length → 0 < k →
      startsWith (n.drop k) gitignoreStart = false)
    (hnS : n.length ≤ gitignoreStart.length) :
    ∀ q, q < (existing.take i).length →
      startsWith n ((existing.take i ++ (managedBlock paths ++ post)).drop q) = false := by
  intro q hq
  by_contra hocc
  rw [Bool.not_eq_false] at hocc
  have hprelen : (existing.take i).length = i := by
    rw [List.length_take]; omega
  rw [hprelen] at hq
  rcases startsWith_split hocc (by omega) with ⟨hc, hin⟩ | ⟨hsp, hin⟩
  · rw [hprelen] at hc
    have hdt : (existing.take i).drop q = (existing.drop q).take (i - q) :=
      List.drop_take i q existing
    rw [hdt] at hin
    have htr : startsWith n (existing.drop q) = true :=
      startsWith_of_take hin (by omega)
    rw [hmin q (by omega)] at htr
    exact Bool.false_ne_true htr
  · rw [hprelen] at hsp hin
    have hkpos : 0 < i - q := by omega
    have hklt : i - q < n.length := by omega
    rw [managedBlock_front] at hin
    have h3 := startsWith_of_append_left hin
      (by simp only [List.length_drop]; omega)
    rw [hborder (i - q) hklt hkpos] at h3
    exact Bool.false_ne_true h3

/-- No marker occurrence can start inside `existing ++ nls` (the content as
terminated by the append branch, `nls` being the added newlines) when the
needle does not occur in `existing` at all and contains no newline. -/
theorem no_occ_in_append_pre {n existing nls : List Char}
    (paths : List (List Char)) (post : List Char)
    (hn : n ≠ [])
    (hnnl : '\n' ∉ n)
    (hnls : ∀ c ∈ nls, c = '\n')
    (hnone : ∀ q, startsWith n (existing.drop q) = false)
    (hborder : ∀ k, k < n.length → 0 < k →
      startsWith (n.drop k) gitignoreStart = false)
    (hnS : n.length ≤ gitignoreStart.length) :
    ∀ q, q < (existing ++ nls).length →
      startsWith n (((existing ++ nls) ++ (managedBlock paths ++ post)).drop q) = false := by
  intro q hq
  by_contra hocc
  rw [Bool.not_eq_false] at hocc
  simp only [List.length_append] at hq
  have hnlen : 0 < n.length := by
    cases n with
    | nil => exact absurd rfl hn
    | cons a as => simp
  rcases startsWith_split hocc (by simp only [List.length_append]; omega)
    with ⟨hc, hin⟩ | ⟨hsp, hin⟩
  · simp only [List.length_append] at hc
    by_cases hqe : q ≤ existing.length
    · rcases startsWith_split hin hqe with ⟨hc2, hin2⟩ | ⟨hsp2, hin2⟩
      · rw [hnone q] at hin2
        exact Bool.false_ne_true hin2
      · -- the occurrence starts in (or right after) `existing` and continues
        -- into the appended newlines: some needle character would be a newline
        have hne : n.drop (existing.length - q) ≠ [] := by
          intro habs
          have hzero : (n.drop (existing.length - q)).length = 0 := by
            rw [habs]; rfl
          simp only [List.length_drop] at hzero
          omega
        cases hnlseq : nls with
        | nil =>
          rw [hnlseq] at hin2
          cases hnd : n.drop (existing.length - q) with
          | nil => exact hne hnd
          | cons a as =>
            rw [hnd] at hin2
            simp [startsWith] at hin2
        | cons c cs =>
          have hh := startsWith_head hin2 hne
          rw [hnlseq] at hh
          simp only [List.head?_cons] at hh
          have hcnl : c = '\n' := hnls c (by rw [hnlseq]; exact List.mem_cons_self _ _)
          have hmem : '\n' ∈ n.drop (existing.length - q) := by
            apply mem_of_head?_eq_some
            rw [← hh, hcnl]
          exact hnnl (List.mem_of_mem_drop hmem)
    · -- the occurrence starts inside the appended newlines: its first
      -- character would be a newline
      push_neg at hqe
      rw [drop_append_ge (by omega)] at hin
      have hne2 : nls.drop (q - existing.length) ≠ [] := by
        intro habs
        have hzero : (nls.drop (q - existing.length)).length = 0 := by
          rw [habs]; rfl
        simp only [List.length_drop] at hzero
        omega
      have hh := startsWith_head hin hn
      have hc2 : (nls.drop (q - existing.length)).head? = some '\n' := by
        cases hhd : (nls.drop (q - existing.length)).head? with
        | none => exact absurd (List.head?_eq_none_iff.mp hhd) hne2
        | some c =>
          have hcmem : c ∈ nls.drop (q - existing.length) := mem_of_head?_eq_some hhd
          rw [hnls c (List.mem_of_mem_drop hcmem)]
      rw [hc2] at hh
      have hmem : '\n' ∈ n := mem_of_head?_eq_some hh.symm
      exact hnnl hmem
  · -- the occurrence spans into the managed block: the needle would have to
    -- continue into the start marker
    rw [List.length_append] at hsp hin
    rw [managedBlock_front] at hin
    have hlen2 : (n.drop (existing.length + nls.length - q)).length ≤
        gitignoreStart.length := by
      simp only [List.length_drop]
      omega
    have h3 := startsWith_of_append_left hin hlen2
    have hb := hborder (existing.length + nls.length - q) (by omega) (by omega)
    rw [hb] at h3
    exact Bool.false_ne_true h3

/-! ## Sortedness of the managed block entries -/

theorem lexLe_total (a b : List Char) : lexLe a b = true ∨ lexLe b a = true := by
  induction a generalizing b with
  | nil => exact Or.inl rfl
  | cons x xs ih =>
    cases b with
    | nil => exact Or.inr rfl
    | cons y ys =>
      by_cases hxy : x = y
      · subst hxy
        rcases ih ys with h | h
        · left; simp [lexLe, h]
        · right; simp [lexLe, h]
      · rcases lt_trichotomy x y with hlt | heq | hgt
        · left; simp [lexLe, hxy, hlt]
        · exact absurd heq hxy
        · right
          have hyx : ¬(y = x) := fun h => hxy h.symm
          simp [lexLe, hyx, hgt]

theorem pairsSorted_insertStr {x : List Char} {l : List (List Char)}
    (h : pairsSorted l = true) : pairsSorted (insertStr x l) = true := by
  induction l with
  | nil => rfl
  | cons y ys ih =>
    simp only [insertStr]
    by_cases hxy : lexLe x y = true
    · rw [if_pos hxy]
      simp [pairsSorted, hxy, h]
    · rw [if_neg hxy]
      have hyx : lexLe y x = true := by
        rcases lexLe_total x y with h1 | h1
        · exact absurd h1 hxy
        · exact h1
      cases ys with
      | nil => simp [insertStr, pairsSorted, hyx]
      | cons z zs =>
        have hyz : lexLe y z = true := by
          simp only [pairsSorted, Bool.and_eq_true] at h
          exact h.1
        have hzs : pairsSorted (z :: zs) = true := by
          simp only [pairsSorted, Bool.and_eq_true] at h
          exact h.2
        have hins := ih hzs
        simp only [insertStr]
        by_cases hxz : lexLe x z = true
        · rw [if_pos hxz]
          simp only [pairsSorted, Bool.and_eq_true]
          refine ⟨hyx, hxz, ?_⟩
          simpa [pairsSorted] using hzs
        · rw [if_neg hxz]
          have hrec : pairsSorted (z :: insertStr x zs) = true := by
            simp only [insertStr, if_neg hxz] at hins
            exact hins
          simp only [pairsSorted, Bool.and_eq_true]
          exact ⟨hyz, by simpa [pairsSorted] using hrec⟩

theorem pairsSorted_sortStrs (l : List (List Char)) :
    pairsSorted (sortStrs l) = true := by
  induction l with
  | nil => rfl
  | cons x xs ih =>
    simp only [sortStrs]
    exact pairsSorted_insertStr ih

/-! ## Lemmas about the expected-set collector -/

theorem mem_upsert_key {k v lp : List Char} {l : List (List Char × List Char)} :
    (∃ w, (lp, w) ∈ upsert k v l) ↔ lp = k ∨ (∃ w, (lp, w) ∈ l) := by
  induction l with
  | nil => simp [upsert]
  | cons p rest ih =>
    obtain ⟨k2, v2⟩ := p
    simp only [upsert]
    by_cases hk : k2 = k
    · subst hk
      rw [if_pos rfl]
      simp only [List.mem_cons, Prod.mk.injEq]
      constructor
      · rintro ⟨w, hw | hw⟩
        · exact Or.inl hw.1
        · exact Or.inr ⟨w, Or.inr hw⟩
      · rintro (rfl | ⟨w, hw | hw⟩)
        · exact ⟨v, Or.inl ⟨rfl, rfl⟩⟩
        · exact ⟨v, Or.inl ⟨hw.1, rfl⟩⟩
        · exact ⟨w, Or.inr hw⟩
    · rw [if_neg hk]
      constructor
      · rintro ⟨w, hw⟩
        rw [List.mem_cons] at hw
        rcases hw with hw | hw
        · exact Or.inr ⟨w, by rw [List.mem_cons]; exact Or.inl hw⟩
        · rcases ih.mp ⟨w, hw⟩ with h | ⟨w2, hw2⟩
          · exact Or.inl h
          · exact Or.inr ⟨w2, by rw [List.mem_cons]; exact Or.inr hw2⟩
      · rintro (h | ⟨w, hw⟩)
        · rcases ih.mpr (Or.inl h) with ⟨w, hw⟩
          exact ⟨w, by rw [List.mem_cons]; exact Or.inr hw⟩
        · rw [List.mem_cons] at hw
          rcases hw with hw | hw
          · exact ⟨w, by rw [List.mem_cons]; exact Or.inl hw⟩
          · rcases ih.mpr (Or.inr ⟨w, hw⟩) with ⟨w2, hw2⟩
            exact ⟨w2, by rw [List.mem_cons]; exact Or.inr hw2⟩

theorem collectRepos_mem {pattern relDir : List Char} {repos : List (List Char)}
    {acc res : List (List Char × List Char)}
    (h : collectRepos pattern relDir repos acc = Except.ok res) (lp : List Char) :
    (∃ v, (lp, v) ∈ res) ↔
      ((∃ v, (lp, v) ∈ acc) ∨
        ∃ repo ∈ repos, deriveLocalPath relDir repo = lp ∧
          (pattern = [] ∨ goMatch pattern lp = Except.ok true)) := by
  induction repos generalizing acc with
  | nil =>
    simp only [collectRepos, Except.ok.injEq] at h
    subst h
    simp
  | cons repo rest ih =>
    simp only [collectRepos] at h
    by_cases hpat : pattern = []
    · rw [if_pos hpat] at h
      rw [ih h, mem_upsert_key]
      constructor
      · rintro ((heq | hacc) | ⟨r, hr, hd, hcnd⟩)
        · exact Or.inr ⟨repo, List.mem_cons_self _ _, heq.symm, Or.inl hpat⟩
        · exact Or.inl hacc
        · exact Or.inr ⟨r, List.mem_cons_of_mem _ hr, hd, hcnd⟩
      · rintro (hacc | ⟨r, hr, hd, hcnd⟩)
        · exact Or.inl (Or.inr hacc)
        · rw [List.mem_cons] at hr
          rcases hr with rfl | hr
          · exact Or.inl (Or.inl hd.symm)
          · exact Or.inr ⟨r, hr, hd, hcnd⟩
    · rw [if_neg hpat] at h
      cases hm : goMatch pattern (deriveLocalPath relDir repo) with
      | error e =>
        simp only [hm] at h
        exact absurd h (by simp)
      | ok b =>
        simp only [hm] at h
        cases b with
        | true =>
          rw [ih h, mem_upsert_key]
          constructor
          · rintro ((heq | hacc) | ⟨r, hr, hd, hcnd⟩)
            · refine Or.inr ⟨repo, List.mem_cons_self _ _, heq.symm, Or.inr ?_⟩
              rw [heq]
              exact hm
            · exact Or.inl hacc
            · exact Or.inr ⟨r, List.mem_cons_of_mem _ hr, hd, hcnd⟩
          · rintro (hacc | ⟨r, hr, hd, hcnd⟩)
            · exact Or.inl (Or.inr hacc)
            · rw [List.mem_cons] at hr
              rcases hr with rfl | hr
              · exact Or.inl (Or.inl hd.symm)
              · exact Or.inr ⟨r, hr, hd, hcnd⟩
        | false =>
          rw [ih h]
          constructor
          · rintro (hacc | ⟨r, hr, hd, hcnd⟩)
            · exact Or.inl hacc
            · exact Or.inr ⟨r, List.mem_cons_of_mem _ hr, hd, hcnd⟩
          · rintro (hacc | ⟨r, hr, hd, hcnd⟩)
            · exact Or.inl hacc
            · rw [List.mem_cons] at hr
              rcases hr with rfl | hr
              · rcases hcnd with hcnd | hcnd
                · exact absurd hcnd hpat
                · rw [← hd, hm] at hcnd
                  exact absurd hcnd (by simp)
              · exact Or.inr ⟨r, hr, hd, hcnd⟩

theorem collectAll_mem {pattern : List Char}
    {manifests : List (List Char × List (List Char))}
    {acc res : List (List Char × List Char)}
    (h : collectAll pattern manifests acc = Except.ok res) (lp : List Char) :
    (∃ v, (lp, v) ∈ res) ↔
      ((∃ v, (lp, v) ∈ acc) ∨
        ∃ m ∈ manifests, ∃ repo ∈ parseGitjoinLines m.2,
          deriveLocalPath m.1 repo = lp ∧
          (pattern = [] ∨ goMatch pattern lp = Except.ok true)) := by
  induction manifests generalizing acc with
  | nil =>
    simp only [collectAll, Except.ok.injEq] at h
    subst h
    simp
  | cons m rest ih =>
    obtain ⟨relDir, lines⟩ := m
    simp only [collectAll] at h
    cases hc : collectRepos pattern relDir (parseGitjoinLines lines) acc with
    | error e =>
      simp only [hc] at h
      exact absurd h (by simp)
    | ok acc2 =>
      simp only [hc] at h
      rw [ih h, collectRepos_mem hc]
      constructor
      · rintro ((hacc | ⟨r, hr, hd, hcnd⟩) | ⟨m2, hm2, r, hr, hd, hcnd⟩)
        · exact Or.inl hacc
        · exact Or.inr ⟨(relDir, lines), List.mem_cons_self _ _, r, hr, hd, hcnd⟩
        · exact Or.inr ⟨m2, List.mem_cons_of_mem _ hm2, r, hr, hd, hcnd⟩
      · rintro (hacc | ⟨m2, hm2, r, hr, hd, hcnd⟩)
        · exact Or.inl (Or.inl hacc)
        · rw [List.mem_cons] at hm2
          rcases hm2 with rfl | hm2
          · exact Or.inl (Or.inr ⟨r, hr, hd, hcnd⟩)
          · exact Or.inr ⟨m2, hm2, r, hr, hd, hcnd⟩

theorem collectRepos_empty_pattern_ok (relDir : List Char) (repos : List (List Char))
    (acc : List (List Char × List Char)) :
    ∃ res, collectRepos [] relDir repos acc = Except.ok res := by
  induction repos generalizing acc with
  | nil => exact ⟨acc, rfl⟩
  | cons r rest ih =>
    simp only [collectRepos, if_pos]
    exact ih _

theorem collectAll_empty_pattern_ok
    (manifests : List (List Char × List (List Char)))
    (acc : List (List Char × List Char)) :
    ∃ res, collectAll [] manifests acc = Except.ok res := by
  induction manifests generalizing acc with
  | nil => exact ⟨acc, rfl⟩
  | cons m rest ih =>
    obtain ⟨relDir, lines⟩ := m
    simp only [collectAll]
    obtain ⟨acc2, hacc2⟩ := collectRepos_empty_pattern_ok relDir (parseGitjoinLines lines) acc
    rw [hacc2]
    exact ih _

theorem collectRepos_malformed {pattern relDir : List Char} {repos : List (List Char)}
    {acc : List (List Char × List Char)}
    (hpat : pattern ≠ [])
    (hbad : ∀ nm, goMatch pattern nm = Except.error ())
    (hne : repos ≠ []) :
    collectRepos pattern relDir repos acc = Except.error () := by
  cases repos with
  | nil => exact absurd rfl hne
  | cons r rest =>
    simp only [collectRepos, if_neg hpat, hbad]

theorem collectAll_malformed {pattern : List Char}
    {manifests : List (List Char × List (List Char))}
    {acc : List (List Char × List Char)}
    (hpat : pattern ≠ [])
    (hbad : ∀ nm, goMatch pattern nm = Except.error ())
    (hne : ∃ m ∈ manifests, parseGitjoinLines m.2 ≠ []) :
    collectAll pattern manifests acc = Except.error () := by
  induction manifests generalizing acc with
  | nil => simp at hne
  | cons m rest ih =>
    obtain ⟨relDir, lines⟩ := m
    simp only [collectAll]
    rcases hne with ⟨m2, hm2, hne2⟩
    rw [List.mem_cons] at hm2
    rcases hm2 with rfl | hm2
    · simp only [collectRepos_malformed hpat hbad hne2]
    · cases hc : collectRepos pattern relDir (parseGitjoinLines lines) acc with
      | error e => simp only [hc]
      | ok acc2 =>
        simp only [hc]
        exact ih ⟨m2, hm2, hne2⟩

end Gitjoin

/-- C10: in DefaultBranch the "could not parse default branch" error branch
is unreachable: splitting any string on "/" yields at least one element, so
whenever the symbolic-ref invocation succeeds, DefaultBranch returns the
last "/"-separated segment of the trimmed output and never the parse
error. -/
theorem C10_defaultBranch_parse_error_unreachable (out : List Char) :
    Gitjoin.defaultBranch (Except.ok out) = Except.ok (Gitjoin.lastSegment out) := by
  have hne := Gitjoin.goSplitChar_ne_nil '/' (Gitjoin.goTrimSpace out)
  unfold Gitjoin.defaultBranch Gitjoin.defaultBranchParse Gitjoin.lastSegment
  simp only [List.isEmpty_iff, hne, if_false]

/-- C9: for every remote identifier of the form host/rest (with no "/" in
the host part), the clone URL is "https://host/rest.git" when the
GITHUB_ACTIONS environment variable is set (non-empty) and
"git@host:rest.git" otherwise. -/
theorem C9_repoPathToURL (env host rest : List Char) (hhost : '/' ∉ host) :
    Gitjoin.repoPathToURL env (host ++ '/' :: rest) =
      if env ≠ [] then "https://".toList ++ host ++ ['/'] ++ rest ++ ".git".toList
      else "git@".toList ++ host ++ [':'] ++ rest ++ ".git".toList := by
  unfold Gitjoin.repoPathToURL
  rw [Gitjoin.splitFirst_append hhost]

/-- Witness for C9 at a concrete identifier, in both environments. -/
theorem C9_repoPathToURL_witness :
    ('/' ∉ "github.com".toList) ∧
    Gitjoin.repoPathToURL "true".toList ("github.com".toList ++ '/' :: "bep/gitjoin".toList) =
      (if "true".toList ≠ ([] : List Char) then
        "https://".toList ++ "github.com".toList ++ ['/'] ++ "bep/gitjoin".toList ++ ".git".toList
      else
        "git@".toList ++ "github.com".toList ++ [':'] ++ "bep/gitjoin".toList ++ ".git".toList) ∧
    Gitjoin.repoPathToURL [] ("github.com".toList ++ '/' :: "bep/gitjoin".toList) =
      (if ([] : List Char) ≠ ([] : List Char) then
        "https://".toList ++ "github.com".toList ++ ['/'] ++ "bep/gitjoin".toList ++ ".git".toList
      else
        "git@".toList ++ "github.com".toList ++ [':'] ++ "bep/gitjoin".toList ++ ".git".toList) :=
  ⟨by decide,
   C9_repoPathToURL "true".toList "github.com".toList "bep/gitjoin".toList (by decide),
   C9_repoPathToURL [] "github.com".toList "bep/gitjoin".toList (by decide)⟩

open Gitjoin

/-- C1 counterexample: with two expected pairs, the first of which fails to
clone, the run is aborted with that clone error (processRepo returns the
error, the pool's Wait propagates it and run returns it): no Warning entry
is recorded anywhere and the second pair's outcome is never delivered in a
Result. -/
theorem C1_counterexample :
    runModel false [("r1", envCloneFail), ("r2", envClean)] [] =
      Except.error "clone r1: boom" ∧
    ∀ res : GoResult,
      runModel false [("r1", envCloneFail), ("r2", envClean)] [] ≠ Except.ok res := by
  constructor
  · rfl
  · intro res hres
    exact Except.noConfusion
      ((rfl :
        runModel false [("r1", envCloneFail), ("r2", envClean)] [] =
          Except.error "clone r1: boom").symm.trans hres)

/-- C1 amended: a fatal per-repository failure during synchronization
(clone error, stash error, switch-branch error, pull error) makes
processRepo return an error for that repository; run propagates the first
such error and the whole run aborts with it - no Warning entry is recorded
and the remaining pairs' outcomes are discarded. -/
theorem C1_amended_fatal_failures_abort_run :
    (∀ (force : Bool) (p e : String) (env : RepoEnv),
      env.existsOnDisk = false → env.cloneRes = some e →
      (processRepo force p env).1 = Except.error ("clone " ++ p ++ ": " ++ e)) ∧
    (∀ (p e : String) (env : RepoEnv),
      env.existsOnDisk = true → env.gitRepo = true →
      (∃ d, env.defBranchRes = Except.ok d) → (∃ c, env.curBranchRes = Except.ok c) →
      env.dirtyRes = Except.ok true → env.stashRes = some e →
      (processRepo true p env).1 = Except.error (p ++ ": stash: " ++ e)) ∧
    (∀ (p e d c : String) (env : RepoEnv),
      env.existsOnDisk = true → env.gitRepo = true →
      env.defBranchRes = Except.ok d → env.curBranchRes = Except.ok c → c ≠ d →
      env.dirtyRes = Except.ok false → env.switchRes = some e →
      (processRepo true p env).1 = Except.error (p ++ ": switch branch: " ++ e)) ∧
    (∀ (force : Bool) (p e d : String) (env : RepoEnv),
      env.existsOnDisk = true → env.gitRepo = true →
      env.defBranchRes = Except.ok d → env.curBranchRes = Except.ok d →
      env.dirtyRes = Except.ok false → env.pullRes = Except.error e →
      (processRepo force p env).1 = Except.error (p ++ ": pull: " ++ e)) ∧
    (∀ (force : Bool) (pairs rest : List (String × RepoEnv)) (disk : List String)
      (p e : String) (env : RepoEnv),
      (∀ pr ∈ pairs, ∃ entries, (processRepo force pr.1 pr.2).1 = Except.ok entries) →
      (processRepo force p env).1 = Except.error e →
      runModel force (pairs ++ (p, env) :: rest) disk = Except.error e) := by
  refine ⟨?_, ?_, ?_, ?_, ?_⟩
  · intro force p e env hex hc
    simp [processRepo, hex, hc]
  · rintro p e env hex hg ⟨d, hd⟩ ⟨c, hcur⟩ hdirty hs
    simp [processRepo, hex, hg, hd, hcur, hdirty, hs]
  · intro p e d c env hex hg hd hcur hne hdirty hs
    simp [processRepo, forceSwitch, hex, hg, hd, hcur, hne, hdirty, hs]
  · intro force p e d env hex hg hd hcur hdirty hp
    cases force
    · simp [processRepo, hex, hg, hd, hcur, hdirty, hp]
    · simp [processRepo, forceSwitch, forcePull, hex, hg, hd, hcur, hdirty, hp]
  · intro force pairs rest disk p e env hok herr
    exact runModel_error_of_processRepo_error force pairs rest disk p env e hok herr

/-- Witness for C1 amended: the clone-failure case at a concrete oracle. -/
theorem C1_amended_witness :
    (processRepo false "r1" envCloneFail).1 =
      Except.error ("clone " ++ "r1" ++ ": " ++ "boom") :=
  C1_amended_fatal_failures_abort_run.1 false "r1" "boom" envCloneFail rfl rfl

/-- C2 counterexample: a forced sync of a dirty checkout where stash and
pull succeed but the final unstash fails with a conflict: the run is
aborted with the unstash error, so no Updated outcome with the accumulated
trail and no Warning is recorded, contrary to the claim. -/
theorem C2_counterexample :
    runModel true [("r", envUnstashFail)] [] = Except.error "r: unstash: conflict" ∧
    ∀ res : GoResult,
      runModel true [("r", envUnstashFail)] [] ≠ Except.ok res := by
  constructor
  · rfl
  · intro res hres
    exact Except.noConfusion
      ((rfl :
        runModel true [("r", envUnstashFail)] [] =
          Except.error "r: unstash: conflict").symm.trans hres)

/-- C2 amended: when the force flag is set, a stash was taken and every
other step succeeded, a failure of the final Unstash operation is fatal:
processRepo returns the unstash error (the accumulated detail trail is
discarded, no Updated outcome is recorded) and run aborts with that error.
The code takes no action that would drop the stash, so the stash itself is
left as the failed `git stash pop` leaves it. -/
theorem C2_amended_unstash_failure_fatal :
    ∀ (p e d c : String) (env : RepoEnv) (ch : Bool) (rest : List (String × RepoEnv))
      (disk : List String),
      env.existsOnDisk = true → env.gitRepo = true →
      env.defBranchRes = Except.ok d → env.curBranchRes = Except.ok c →
      env.dirtyRes = Except.ok true → env.stashRes = none → env.switchRes = none →
      env.pullRes = Except.ok ch → env.unstashRes = some e →
      (processRepo true p env).1 = Except.error (p ++ ": unstash: " ++ e) ∧
      runModel true ((p, env) :: rest) disk = Except.error (p ++ ": unstash: " ++ e) := by
  intro p e d c env ch rest disk hex hg hd hcur hdirty hs hsw hp hu
  have h1 : (processRepo true p env).1 = Except.error (p ++ ": unstash: " ++ e) := by
    by_cases hne : c ≠ d
    · simp [processRepo, forceSwitch, forcePull, hex, hg, hd, hcur, hdirty, hs, hsw, hp,
        hu, hne]
    · simp [processRepo, forceSwitch, forcePull, hex, hg, hd, hcur, hdirty, hs, hp, hu, hne]
  refine ⟨h1, ?_⟩
  have h2 := runModel_error_of_processRepo_error true [] rest disk p env
    (p ++ ": unstash: " ++ e) (by simp) h1
  simpa using h2

/-- Witness for C2 amended at a concrete oracle. -/
theorem C2_amended_witness :
    (processRepo true "r" envUnstashFail).1 =
      Except.error ("r" ++ ": unstash: " ++ "conflict") ∧
    runModel true [("r", envUnstashFail)] [] =
      Except.error ("r" ++ ": unstash: " ++ "conflict") :=
  C2_amended_unstash_failure_fatal "r" "conflict" "main" "main" envUnstashFail true [] []
    rfl rfl rfl rfl rfl rfl rfl rfl rfl

/-- C3: for a dirty checkout on a non-default branch synchronized with the
force flag, either some step fails and nothing is recorded for the
repository, or the recorded Updated detail trail is exactly "stashed",
then "switched to <default>", then (iff the pull changed the head)
"pulled", then "unstashed" - so stashed comes before switched, switched
before pulled, and unstashed last, and no other relative order ever
occurs. -/
theorem C3_force_order_invariant (p d c : String) (env : RepoEnv)
    (hex : env.existsOnDisk = true) (hg : env.gitRepo = true)
    (hd : env.defBranchRes = Except.ok d) (hcur : env.curBranchRes = Except.ok c)
    (hne : c ≠ d) (hdirty : env.dirtyRes = Except.ok true) :
    (∃ e, (processRepo true p env).1 = Except.error e) ∨
    (∃ ch, env.pullRes = Except.ok ch ∧
      (processRepo true p env).1 =
        Except.ok [ResultEntry.updated p (String.intercalate ", "
          (["stashed", "switched to " ++ d] ++ (if ch = true then ["pulled"] else []) ++
            ["unstashed"]))]) := by
  cases hs : env.stashRes with
  | some e =>
    exact Or.inl ⟨p ++ ": stash: " ++ e, by simp [processRepo, hex, hg, hd, hcur, hdirty, hs]⟩
  | none =>
    cases hsw : env.switchRes with
    | some e =>
      exact Or.inl ⟨p ++ ": switch branch: " ++ e, by
        simp [processRepo, forceSwitch, hex, hg, hd, hcur, hdirty, hs, hsw, hne]⟩
    | none =>
      cases hp : env.pullRes with
      | error e =>
        exact Or.inl ⟨p ++ ": pull: " ++ e, by
          simp [processRepo, forceSwitch, forcePull, hex, hg, hd, hcur, hdirty, hs, hsw,
            hne, hp]⟩
      | ok ch =>
        cases hu : env.unstashRes with
        | some e =>
          exact Or.inl ⟨p ++ ": unstash: " ++ e, by
            simp [processRepo, forceSwitch, forcePull, hex, hg, hd, hcur, hdirty, hs, hsw,
              hne, hp, hu]⟩
        | none =>
          refine Or.inr ⟨ch, rfl, ?_⟩
          cases ch
          · simp [processRepo, forceSwitch, forcePull, hex, hg, hd, hcur, hdirty, hs, hsw,
              hne, hp, hu]
          · simp [processRepo, forceSwitch, forcePull, hex, hg, hd, hcur, hdirty, hs, hsw,
              hne, hp, hu]

/-- Witness for C3 at a concrete oracle where every step succeeds. -/
theorem C3_witness :
    (∃ e, (processRepo true "r" envForceAll).1 = Except.error e) ∨
    (∃ ch, envForceAll.pullRes = Except.ok ch ∧
      (processRepo true "r" envForceAll).1 =
        Except.ok [ResultEntry.updated "r" (String.intercalate ", "
          (["stashed", "switched to " ++ "main"] ++ (if ch = true then ["pulled"] else []) ++
            ["unstashed"]))]) :=
  C3_force_order_invariant "r" "main" "dev" envForceAll rfl rfl rfl rfl
    (by decide) rfl

/-- C4: without the force flag, for an existing recognized checkout whose
inspections succeed: dirty gives Skipped("uncommitted changes", change
summary) with no pull attempted; clean on a non-default branch gives
Skipped("non-default branch", "on <branch>") with no pull attempted;
otherwise a pull runs and an Updated("pulled") entry is recorded iff the
pull changed the head (no entry on an unchanged head). -/
theorem C4_without_force_decision (p d c : String) (env : RepoEnv)
    (hex : env.existsOnDisk = true) (hg : env.gitRepo = true)
    (hd : env.defBranchRes = Except.ok d) (hcur : env.curBranchRes = Except.ok c) :
    (env.dirtyRes = Except.ok true →
      processRepo false p env =
        (Except.ok [ResultEntry.skipped p "uncommitted changes" env.changesSummary],
         [GitOp.statDisk, GitOp.isGitRepoOp, GitOp.defaultBranchOp, GitOp.currentBranchOp,
          GitOp.statusOp, GitOp.summaryOp]) ∧
      GitOp.pullOp ∉ (processRepo false p env).2) ∧
    (env.dirtyRes = Except.ok false → c ≠ d →
      processRepo false p env =
        (Except.ok [ResultEntry.skipped p "non-default branch" ("on " ++ c)],
         [GitOp.statDisk, GitOp.isGitRepoOp, GitOp.defaultBranchOp, GitOp.currentBranchOp,
          GitOp.statusOp]) ∧
      GitOp.pullOp ∉ (processRepo false p env).2) ∧
    (env.dirtyRes = Except.ok false → c = d → ∀ ch, env.pullRes = Except.ok ch →
      processRepo false p env =
        (Except.ok (if ch = true then [ResultEntry.updated p "pulled"] else []),
         [GitOp.statDisk, GitOp.isGitRepoOp, GitOp.defaultBranchOp, GitOp.currentBranchOp,
          GitOp.statusOp, GitOp.pullOp])) := by
  refine ⟨?_, ?_, ?_⟩
  · intro hdirty
    have hpr : processRepo false p env =
        (Except.ok [ResultEntry.skipped p "uncommitted changes" env.changesSummary],
         [GitOp.statDisk, GitOp.isGitRepoOp, GitOp.defaultBranchOp, GitOp.currentBranchOp,
          GitOp.statusOp, GitOp.summaryOp]) := by
      simp [processRepo, hex, hg, hd, hcur, hdirty]
    refine ⟨hpr, ?_⟩
    rw [hpr]
    simp
  · intro hdirty hne
    have hpr : processRepo false p env =
        (Except.ok [ResultEntry.skipped p "non-default branch" ("on " ++ c)],
         [GitOp.statDisk, GitOp.isGitRepoOp, GitOp.defaultBranchOp, GitOp.currentBranchOp,
          GitOp.statusOp]) := by
      simp [processRepo, hex, hg, hd, hcur, hdirty, hne]
    refine ⟨hpr, ?_⟩
    rw [hpr]
    simp
  · intro hdirty hcd ch hp
    subst hcd
    cases ch
    · simp [processRepo, hex, hg, hd, hcur, hdirty, hp]
    · simp [processRepo, hex, hg, hd, hcur, hdirty, hp]

/-- Witness for C4: all three decision branches at concrete oracles. -/
theorem C4_without_force_witness :
    processRepo false "r" envUnstashFail =
      (Except.ok [ResultEntry.skipped "r" "uncommitted changes" envUnstashFail.changesSummary],
       [GitOp.statDisk, GitOp.isGitRepoOp, GitOp.defaultBranchOp, GitOp.currentBranchOp,
        GitOp.statusOp, GitOp.summaryOp]) ∧
    processRepo false "r" envNonDefault =
      (Except.ok [ResultEntry.skipped "r" "non-default branch" ("on " ++ "dev")],
       [GitOp.statDisk, GitOp.isGitRepoOp, GitOp.defaultBranchOp, GitOp.currentBranchOp,
        GitOp.statusOp]) ∧
    processRepo false "r" envClean =
      (Except.ok (if false = true then [ResultEntry.updated "r" "pulled"] else []),
       [GitOp.statDisk, GitOp.isGitRepoOp, GitOp.defaultBranchOp, GitOp.currentBranchOp,
        GitOp.statusOp, GitOp.pullOp]) :=
  ⟨((C4_without_force_decision "r" "main" "main" envUnstashFail rfl rfl rfl rfl).1 rfl).1,
   ((C4_without_force_decision "r" "main" "dev" envNonDefault rfl rfl rfl rfl).2.1 rfl
      (by decide)).1,
   (C4_without_force_decision "r" "main" "main" envClean rfl rfl rfl rfl).2.2 rfl rfl
      false rfl⟩

/-- C8: after a fully successful synchronization pass, an on-disk checkout
is recorded as Removed iff its path is not among the expected local paths;
every expected checkout - in particular every repository cloned during the
same run - is untouched by the sweeper. -/
theorem C8_orphan_sweep (force : Bool) (pairs : List (String × RepoEnv))
    (disk : List String) (res : GoResult)
    (h : runModel force pairs disk = Except.ok res) :
    (∀ r, r ∈ res.removed ↔ (r ∈ disk ∧ r ∉ pairs.map Prod.fst)) ∧
    (∀ p, p ∈ res.cloned → p ∈ pairs.map Prod.fst) ∧
    (∀ p, p ∈ res.cloned → p ∉ res.removed) := by
  unfold runModel at h
  cases hr : runRepos force pairs emptyResult with
  | error e => rw [hr] at h; exact absurd h (by simp)
  | ok r0 =>
    rw [hr] at h
    simp only [Except.ok.injEq] at h
    subst h
    have hrem : r0.removed = [] := runRepos_removed hr
    have hmain : ∀ r, (r ∈ r0.removed ++
        disk.filter (fun x => !((pairs.map Prod.fst).contains x))) ↔
        (r ∈ disk ∧ r ∉ pairs.map Prod.fst) := by
      intro r
      rw [hrem]
      simp [List.mem_filter]
    have hcl : ∀ p, p ∈ r0.cloned → p ∈ pairs.map Prod.fst := by
      intro p hp
      cases runRepos_cloned_sub hr p hp with
      | inl habs => exact absurd habs (List.not_mem_nil p)
      | inr hk => exact hk
    exact ⟨hmain, hcl, fun p hp hrm => ((hmain p).mp hrm).2 (hcl p hp)⟩

/-- Witness for C8: expected pair "a", on-disk checkouts "a" and "c":
exactly "c" is removed. -/
theorem C8_orphan_sweep_witness :
    ("c" ∈ (GoResult.mk [] [] ["c"] [] []).removed ↔
      ("c" ∈ ["a", "c"] ∧ "c" ∉ ([("a", envClean)].map Prod.fst))) ∧
    ("a" ∉ (GoResult.mk [] [] ["c"] [] []).removed) := by
  have h := C8_orphan_sweep false [("a", envClean)] ["a", "c"]
    (GoResult.mk [] [] ["c"] [] []) rfl
  exact ⟨h.1 "c", fun hmem => by
    have := (h.1 "a").mp hmem
    exact this.2 (by simp)⟩

/-- C5 counterexample: with a single expected path "a" and an initial file
content consisting only of the end marker line, the updater appends a
managed block on the first run and appends another one on the second run
(the stray end marker occurs before the newly written start marker, so the
replace branch is not taken): the second output is not byte-identical to
the first, refuting unconditional idempotence. -/
theorem C5_counterexample :
    ¬ (updateGitignoreContent [['a']]
        (updateGitignoreContent [['a']] (gitignoreEnd ++ ['\n'])) =
      updateGitignoreContent [['a']] (gitignoreEnd ++ ['\n'])) := by
  decide

/-- C5 amended: the Ignore-List Updater is idempotent for every Expected
Set whose local paths contain no '#' character, and every initial file
content that is empty, or contains both markers with the first end-marker
occurrence after the first start-marker occurrence, or contains neither
marker.  (When the initial content contains a marker in any other
configuration - an end marker before any start marker, or only one marker -
a second run rewrites or duplicates the block, as the counterexample
shows.) -/
theorem C5_amended_idempotent (paths : List (List Char)) (existing : List Char)
    (hpaths : ∀ p ∈ paths, '#' ∉ p)
    (hcases : existing = [] ∨
      (∃ i j, firstIdx gitignoreStart existing = some i ∧
        firstIdx gitignoreEnd existing = some j ∧ i < j) ∨
      (firstIdx gitignoreStart existing = none ∧
        firstIdx gitignoreEnd existing = none)) :
    updateGitignoreContent paths (updateGitignoreContent paths existing) =
      updateGitignoreContent paths existing := by
  have hfix0 : updateGitignoreContent paths (managedBlock paths) = managedBlock paths := by
    have h := updateGitignore_fixpoint paths [] [] hpaths
      (by intro q hq; simp at hq) (by intro q hq; simp at hq)
    simpa using h
  rcases hcases with rfl | ⟨i, j, hSf, hEf, hij⟩ | ⟨hSn, hEn⟩
  · rw [update_empty]
    exact hfix0
  · obtain ⟨hSocc, hSmin⟩ := firstIdx_eq_some_spec hSf
    obtain ⟨hEocc, hEmin⟩ := firstIdx_eq_some_spec hEf
    have hi : i ≤ existing.length := firstIdx_le_length hSf
    have hexne : ¬(existing.length = 0) := by
      have hl := startsWith_length_le hEocc
      simp only [List.length_drop] at hl
      have hE1 : 0 < gitignoreEnd.length := by decide
      omega
    have happ : updateGitignoreContent paths existing =
        existing.take i ++ (managedBlock paths ++
          existing.drop (if (existing.drop (j + gitignoreEnd.length)).head? = some '\n'
            then j + gitignoreEnd.length + 1 else j + gitignoreEnd.length)) := by
      simp only [updateGitignoreContent, hexne, if_false, hSf, hEf, if_pos hij]
    rw [happ]
    apply updateGitignore_fixpoint paths (existing.take i) _ hpaths
    · exact no_occ_in_take_pre paths _ hi hSmin S_borderless le_rfl
    · refine no_occ_in_take_pre paths _ hi ?_ E_drop_not_prefix_of_S
        gitignoreEnd_le_start_length
      intro q hq
      exact hEmin q (by omega)
  · by_cases hex : existing = []
    · subst hex
      rw [update_empty]
      exact hfix0
    · have hexne : ¬(existing.length = 0) := by
        intro h0
        exact hex (List.length_eq_zero.mp h0)
      have hSnone := firstIdx_eq_none_spec hSn
      have hEnone := firstIdx_eq_none_spec hEn
      have happ : updateGitignoreContent paths existing =
          appendManaged (managedBlock paths) existing := by
        simp only [updateGitignoreContent, hexne, if_false, hSn, hEn]
      rw [happ]
      unfold appendManaged
      by_cases hlast : existing.getLast? = some '\n'
      · rw [if_pos hlast]
        have hshape : existing ++ ('\n' :: managedBlock paths) =
            (existing ++ ['\n']) ++ (managedBlock paths ++ []) := by
          simp
        rw [hshape]
        apply updateGitignore_fixpoint paths (existing ++ ['\n']) [] hpaths
        · exact no_occ_in_append_pre paths [] gitignoreStart_ne_nil nl_not_mem_S
            (by intro c hc; simpa using hc) hSnone S_borderless le_rfl
        · exact no_occ_in_append_pre paths [] gitignoreEnd_ne_nil nl_not_mem_E
            (by intro c hc; simpa using hc) hEnone E_drop_not_prefix_of_S
            gitignoreEnd_le_start_length
      · rw [if_neg hlast]
        have hshape : (existing ++ ['\n']) ++ ('\n' :: managedBlock paths) =
            (existing ++ ['\n', '\n']) ++ (managedBlock paths ++ []) := by
          simp
        rw [hshape]
        apply updateGitignore_fixpoint paths (existing ++ ['\n', '\n']) [] hpaths
        · exact no_occ_in_append_pre paths [] gitignoreStart_ne_nil nl_not_mem_S
            (by intro c hc; simpa using hc) hSnone
            S_borderless le_rfl
        · exact no_occ_in_append_pre paths [] gitignoreEnd_ne_nil nl_not_mem_E
            (by intro c hc; simpa using hc) hEnone
            E_drop_not_prefix_of_S gitignoreEnd_le_start_length

/-- Witness for C5 amended: a content that already carries a well-formed
managed block (start marker before end marker) is reproduced unchanged by
a second run. -/
theorem C5_amended_witness :
    updateGitignoreContent [['a']]
        (updateGitignoreContent [['a']]
          (gitignoreStart ++ '\n' :: (gitignoreEnd ++ ['\n']))) =
      updateGitignoreContent [['a']]
        (gitignoreStart ++ '\n' :: (gitignoreEnd ++ ['\n'])) :=
  C5_amended_idempotent [['a']] (gitignoreStart ++ '\n' :: (gitignoreEnd ++ ['\n']))
    (by decide)
    (Or.inr (Or.inl ⟨0, 48, by decide, by decide, by decide⟩))

/-- C6: the frame and content properties of the managed block.  When the
existing content has the start marker strictly before the end marker (both
first occurrences), exactly the region from the start marker through the
end marker and one following newline is replaced: everything before the
start marker and after that region is preserved verbatim.  When the
existing non-empty content has neither marker, the block is appended after
a blank line with the existing content preserved (a newline is added first
if the content does not end in one).  The block itself brackets, between
the two marker lines, the newline-terminated entry lines: the expected
local paths each suffixed with "/", sorted lexicographically. -/
theorem C6_managed_block_frame :
    (∀ (paths : List (List Char)) (existing : List Char) (i j : Nat),
      firstIdx gitignoreStart existing = some i →
      firstIdx gitignoreEnd existing = some j → i < j →
      updateGitignoreContent paths existing =
        existing.take i ++ (managedBlock paths ++
          existing.drop (if (existing.drop (j + gitignoreEnd.length)).head? = some '\n'
            then j + gitignoreEnd.length + 1 else j + gitignoreEnd.length))) ∧
    (∀ (paths : List (List Char)) (existing : List Char),
      existing ≠ [] →
      firstIdx gitignoreStart existing = none →
      firstIdx gitignoreEnd existing = none →
      updateGitignoreContent paths existing =
        (if existing.getLast? = some '\n' then existing else existing ++ ['\n']) ++
          ('\n' :: managedBlock paths)) ∧
    (∀ paths : List (List Char),
      managedBlock paths =
        gitignoreStart ++ '\n' ::
          (((entryLines paths).map (fun p => p ++ ['\n'])).flatten ++
            (gitignoreEnd ++ ['\n'])) ∧
      pairsSorted (entryLines paths) = true ∧
      ∀ q, q ∈ entryLines paths ↔ ∃ p ∈ paths, q = p ++ ['/']) := by
  refine ⟨?_, ?_, ?_⟩
  · intro paths existing i j hSf hEf hij
    have hEocc := (firstIdx_eq_some_spec hEf).1
    have hexne : ¬(existing.length = 0) := by
      have hl := startsWith_length_le hEocc
      simp only [List.length_drop] at hl
      have hE1 : 0 < gitignoreEnd.length := by decide
      omega
    simp only [updateGitignoreContent, hexne, if_false, hSf, hEf, if_pos hij]
  · intro paths existing hex hSn hEn
    have hexne : ¬(existing.length = 0) := by
      intro h0
      exact hex (List.length_eq_zero.mp h0)
    simp only [updateGitignoreContent, hexne, if_false, hSn, hEn, appendManaged]
  · intro paths
    refine ⟨?_, pairsSorted_sortStrs _, ?_⟩
    · simp [managedBlock, managedBody]
    · intro q
      simp only [entryLines, mem_sortStrs, List.mem_map]
      constructor
      · rintro ⟨p, hp, rfl⟩
        exact ⟨p, hp, rfl⟩
      · rintro ⟨p, hp, rfl⟩
        exact ⟨p, hp, rfl⟩

/-- Witness for C6: the replace and append branches at concrete contents,
and the block shape for a concrete two-path Expected Set. -/
theorem C6_managed_block_frame_witness :
    (updateGitignoreContent [['a']]
        (gitignoreStart ++ '\n' :: (gitignoreEnd ++ ['\n'])) =
      (gitignoreStart ++ '\n' :: (gitignoreEnd ++ ['\n'])).take 0 ++
        (managedBlock [['a']] ++
          (gitignoreStart ++ '\n' :: (gitignoreEnd ++ ['\n'])).drop
            (if ((gitignoreStart ++ '\n' :: (gitignoreEnd ++ ['\n'])).drop
                (48 + gitignoreEnd.length)).head? = some '\n'
              then 48 + gitignoreEnd.length + 1 else 48 + gitignoreEnd.length))) ∧
    (updateGitignoreContent [['a']] ['x'] =
      (if (['x'] : List Char).getLast? = some '\n' then (['x'] : List Char)
        else ['x'] ++ ['\n']) ++ ('\n' :: managedBlock [['a']])) ∧
    (managedBlock [['b'], ['a']] =
      gitignoreStart ++ '\n' ::
        (((entryLines [['b'], ['a']]).map (fun p => p ++ ['\n'])).flatten ++
          (gitignoreEnd ++ ['\n'])) ∧
      pairsSorted (entryLines [['b'], ['a']]) = true ∧
      ∀ q, q ∈ entryLines [['b'], ['a']] ↔ ∃ p ∈ [['b'], ['a']], q = p ++ ['/']) :=
  ⟨C6_managed_block_frame.1 [['a']] _ 0 48 (by decide) (by decide) (by decide),
   C6_managed_block_frame.2.1 [['a']] ['x'] (by decide) (by decide) (by decide),
   C6_managed_block_frame.2.2 [['b'], ['a']]⟩

/-- C7: properties of the expected-set collector's glob filter.  For every
set of manifests and every pattern for which the collection succeeds, a
derived local path is a key of the Expected Set iff some manifest derives
it and it passes the filter (trivially when the filter is empty); with the
empty filter the collection always succeeds (every derived path included);
a malformed pattern (one filepath.Match rejects for every name) aborts the
entire collection with an error as soon as any repository is listed; and
the glob's star does not cross directory separators: "*" matches exactly
the names free of "/". -/
theorem C7_path_filter :
    (∀ (pattern : List Char) (manifests : List (List Char × List (List Char)))
        (res : List (List Char × List Char)),
      collectExpectedRepos pattern manifests = Except.ok res →
      ∀ lp, (∃ v, (lp, v) ∈ res) ↔
        ∃ m ∈ manifests, ∃ repo ∈ parseGitjoinLines m.2,
          deriveLocalPath m.1 repo = lp ∧
          (pattern = [] ∨ goMatch pattern lp = Except.ok true)) ∧
    (∀ manifests : List (List Char × List (List Char)),
      ∃ res, collectExpectedRepos [] manifests = Except.ok res) ∧
    (∀ (pattern : List Char) (manifests : List (List Char × List (List Char))),
      pattern ≠ [] →
      (∀ nm, goMatch pattern nm = Except.error ()) →
      (∃ m ∈ manifests, parseGitjoinLines m.2 ≠ []) →
      collectExpectedRepos pattern manifests = Except.error ()) ∧
    (∀ name : List Char, goMatch ['*'] name = Except.ok (decide ('/' ∉ name))) := by
  refine ⟨?_, ?_, ?_, ?_⟩
  · intro pattern manifests res h lp
    have hm := collectAll_mem h lp
    simpa using hm
  · intro manifests
    exact collectAll_empty_pattern_ok manifests []
  · intro pattern manifests hpat hbad hne
    exact collectAll_malformed hpat hbad hne
  · intro name
    rfl

/-- Witness for C7: a two-identifier manifest filtered by "b*" keeps
exactly the path matching the glob; the empty filter always succeeds; the
malformed pattern "[" aborts; "*" does not match across "/". -/
theorem C7_path_filter_witness :
    ((∃ v, ("beta".toList, v) ∈
        ([("beta".toList, "h/x/beta".toList)] : List (List Char × List Char))) ↔
      ∃ m ∈ [(((".".toList) : List Char),
          ["h/x/beta".toList, "h/x/alpha".toList])],
        ∃ repo ∈ parseGitjoinLines m.2,
          deriveLocalPath m.1 repo = "beta".toList ∧
          ((['b', '*'] : List Char) = [] ∨
            goMatch ['b', '*'] "beta".toList = Except.ok true)) ∧
    (∃ res, collectExpectedRepos []
      [(((".".toList) : List Char), ["h/x/beta".toList, "h/x/alpha".toList])] =
        Except.ok res) ∧
    collectExpectedRepos ['[']
      [(((".".toList) : List Char), ["h/x/beta".toList, "h/x/alpha".toList])] =
        Except.error () ∧
    goMatch ['*'] "a/b".toList = Except.ok (decide ('/' ∉ "a/b".toList)) :=
  ⟨C7_path_filter.1 ['b', '*']
      [(".".toList, ["h/x/beta".toList, "h/x/alpha".toList])]
      [("beta".toList, "h/x/beta".toList)] (by rfl) "beta".toList,
   C7_path_filter.2.1 [(".".toList, ["h/x/beta".toList, "h/x/alpha".toList])],
   C7_path_filter.2.2.1 ['[']
      [(".".toList, ["h/x/beta".toList, "h/x/alpha".toList])]
      (by decide) (fun nm => by cases nm <;> rfl)
      ⟨(".".toList, ["h/x/beta".toList, "h/x/alpha".toList]),
        List.mem_cons_self _ _, by decide⟩,
   C7_path_filter.2.2.2 "a/b".toList⟩
